import Mathlib

/-!
Shallow embedding of the planet-placer procedural generation core:
icosphere subdivision (`src/planet/regions.rs`), tectonic-plate clustering
(`src/planet/tectonic_plates.rs`) and fixed-point position packing
(`src/utils/packed_vec3.rs`), together with proofs of the specification
claims about them.

Vertex coordinate arithmetic in the source is `f64` (`DVec3`), and none of
the verified claims depend on coordinate values, only on index/edge-key
combinatorics.  The embedding therefore keeps the vertex type `V` and the
midpoint/normalize operations abstract parameters; everything the claims
talk about (counts, indices, edge keys, clustering) is embedded exactly.
-/

namespace PlanetPlacer

open symmDiff
open scoped List

/-! ### Model of `Vec<DVec3>`: a growable array with `push`, `len`, indexing -/

/-- Model of a Rust `Vec<V>`.  `size` is the length (a Rust `Vec` stores it
directly); `data i` is the element at index `i`, meaningful for `i < size`. -/
structure Store (V : Type) where
  size : ℕ
  data : ℕ → V

/-- Model of `Vec::push`. -/
def Store.push {V : Type} (s : Store V) (v : V) : Store V :=
  ⟨s.size + 1, fun i => if i = s.size then v else s.data i⟩

/-- Model of the in-place `for vertex in &mut vertices { *vertex = f(vertex) }`. -/
def Store.map {V : Type} (f : V → V) (s : Store V) : Store V :=
  ⟨s.size, fun i => f (s.data i)⟩

/-! ### The midpoint cache: model of `HashMap<(u16, u16), u16>`

Only `get` and `insert` are used by the source, so any finite-map model is
faithful.  We use a binary trie keyed by the little-endian bits of
`Nat.pair a b` (an injective pairing), which the kernel can evaluate fast. -/

/-- Little-endian bit list of `n`; the first argument is fuel (`n` itself
suffices). -/
def natBits : ℕ → ℕ → List Bool
  | 0, _ => []
  | fuel + 1, n => if n = 0 then [] else decide (n % 2 = 1) :: natBits fuel (n / 2)

/-- Binary trie with values at the nodes. -/
inductive Trie (β : Type) where
  | leaf : Trie β
  | node : Option β → Trie β → Trie β → Trie β

/-- Look up a bit path in a trie. -/
def Trie.findBits {β : Type} : Trie β → List Bool → Option β
  | .leaf, _ => none
  | .node v _ _, [] => v
  | .node _ l r, bit :: rest => (if bit then r else l).findBits rest

/-- Insert a value at a bit path in a trie. -/
def Trie.insertBits {β : Type} : Trie β → List Bool → β → Trie β
  | .leaf, [], v => .node (some v) .leaf .leaf
  | .node _ l r, [], v => .node (some v) l r
  | .leaf, bit :: rest, v =>
    if bit then .node none .leaf (Trie.insertBits .leaf rest v)
    else .node none (Trie.insertBits .leaf rest v) .leaf
  | .node w l r, bit :: rest, v =>
    if bit then .node w l (Trie.insertBits r rest v)
    else .node w (Trie.insertBits l rest v) r

/-- Trie-backed model of the midpoint `HashMap<(u16, u16), u16>`. -/
def Cache : Type := Trie ℕ

/-- The bit path of a pair key. -/
def keyBits (key : ℕ × ℕ) : List Bool :=
  natBits (Nat.pair key.1 key.2) (Nat.pair key.1 key.2)

/-- Model of `HashMap::get`. -/
def cacheFind (c : Cache) (key : ℕ × ℕ) : Option ℕ :=
  c.findBits (keyBits key)

/-- Model of `HashMap::insert`. -/
def cacheInsert (c : Cache) (key : ℕ × ℕ) (v : ℕ) : Cache :=
  c.insertBits (keyBits key) v

/-- The empty cache (`HashMap::new`). -/
def cacheEmpty : Cache := Trie.leaf

/-! ### `subdivide` from `src/planet/regions.rs` -/

variable {V : Type}

/-- The `midpoint` closure of `subdivide`: canonicalize the key, look it up,
otherwise push the normalized midpoint (`mid a b` models
`((vertices[a] + vertices[b]) * 0.5).normalize()`) and record its index.
The `% 65536` models the `vertices.len() as u16` cast. -/
def midpointStep (mid : V → V → V) (a b : ℕ) (vertices : Store V) (cache : Cache) :
    ℕ × Store V × Cache :=
  let key := if a < b then (a, b) else (b, a)
  match cacheFind cache key with
  | some m => (m, vertices, cache)
  | none =>
    let midPos := mid (vertices.data a) (vertices.data b)
    let midIndex := vertices.size % 65536
    (midIndex, vertices.push midPos, cacheInsert cache key midIndex)

/-- The `for chunk in indices.chunks_exact(3)` loop of `subdivide`.  `acc`
holds `new_indices` in reverse (so that each 12-element extension is O(1));
it is reversed on exit. -/
def subdivideLoop (mid : V → V → V) :
    List ℕ → Store V → Cache → List ℕ → Store V × List ℕ
  | a :: b :: c :: rest, vertices, cache, acc =>
    let s1 := midpointStep mid a b vertices cache
    let m1 := s1.1
    let s2 := midpointStep mid b c s1.2.1 s1.2.2
    let m2 := s2.1
    let s3 := midpointStep mid c a s2.2.1 s2.2.2
    let m3 := s3.1
    subdivideLoop mid rest s3.2.1 s3.2.2
      (m3 :: m2 :: m1 :: c :: m2 :: m3 :: m2 :: b :: m1 :: m3 :: m1 :: a :: acc)
  | _, vertices, _, acc => (vertices, acc.reverse)

/-- Model of `subdivide`: one level of icosphere subdivision. -/
def subdivide (mid : V → V → V) (vertices : Store V) (indices : List ℕ) :
    Store V × List ℕ :=
  subdivideLoop mid indices vertices cacheEmpty []

/-- The `for _ in 0..subdivisions { subdivide(...) }` loop. -/
def subdivideIter (mid : V → V → V) : ℕ → Store V × List ℕ → Store V × List ℕ
  | 0, st => st
  | n + 1, st => subdivideIter mid n (subdivide mid st.1 st.2)

/-! ### `Region` and `create_regions` -/

/-- The canonical edge key built by `Region::new`:
`((a.min(b) << 16) | a.max(b)) as u32`. -/
def edgeKey (a b : ℕ) : ℕ := ((min a b) <<< 16) ||| (max a b)

/-- Model of `Region`: three corner positions and three canonical edge keys. -/
structure Region (V : Type) where
  corners : V × V × V
  edges : List ℕ

/-- Model of `Region::new` on a 3-element index slice. -/
def Region.new (idx : List ℕ) (vertices : Store V) : Region V :=
  let a := idx.getD 0 0
  let b := idx.getD 1 0
  let c := idx.getD 2 0
  { corners := (vertices.data a, vertices.data b, vertices.data c)
    edges := [edgeKey a b, edgeKey b c, edgeKey c a] }

/-- Model of `Region::borders`: true iff the two 3-element edge arrays share
at least one key. -/
def Region.borders (r1 r2 : Region V) : Bool :=
  r1.edges.any (fun e => r2.edges.contains e)

/-- The 20 base icosahedron triangles (`ICOS_INDICES`). -/
def icosIndices : List ℕ :=
  [0, 11, 5, 0, 5, 1, 0, 1, 7, 0, 7, 10, 0, 10, 11,
   1, 5, 9, 5, 11, 4, 11, 10, 2, 10, 7, 6, 7, 1, 8,
   3, 9, 4, 3, 4, 2, 3, 2, 6, 3, 6, 8, 3, 8, 9,
   4, 9, 5, 2, 4, 11, 6, 2, 10, 8, 6, 7, 9, 8, 1]

/-- Model of `create_regions`.  `icosVertices` abstracts the 12-element
`ICOS_VERTICES` constant (the claims do not depend on coordinate values),
`normalize` the initial per-vertex normalization, `mid` the midpoint
computation inside `subdivide`. -/
def createRegions (mid : V → V → V) (normalize : V → V) (icosVertices : Store V)
    (subdivisions : ℕ) : List (Region V) :=
  let vertices0 := icosVertices.map normalize
  let st := subdivideIter mid subdivisions (vertices0, icosIndices)
  (List.range (st.2.length / 3)).map
    (fun i => Region.new ((st.2.drop (3 * i)).take 3) st.1)

/-! ### Index-only projection of the subdivision

The subdivision's control flow depends only on the vertex count and on the
index lists, never on coordinate values.  The following "erased" functions
compute exactly the `(vertex count, index list)` evolution; the projection
lemmas below prove they agree with the model above, so that concrete counts
can be evaluated without touching the abstract vertex type. -/

/-- Index-only projection of `midpointStep`: acts on the vertex count. -/
def midpointStepE (a b : ℕ) (size : ℕ) (cache : Cache) : ℕ × ℕ × Cache :=
  let key := if a < b then (a, b) else (b, a)
  match cacheFind cache key with
  | some m => (m, size, cache)
  | none => (size % 65536, size + 1, cacheInsert cache key (size % 65536))

/-- Index-only projection of `subdivideLoop`. -/
def subdivideLoopE : List ℕ → ℕ → Cache → List ℕ → ℕ × List ℕ
  | a :: b :: c :: rest, size, cache, acc =>
    let s1 := midpointStepE a b size cache
    let m1 := s1.1
    let s2 := midpointStepE b c s1.2.1 s1.2.2
    let m2 := s2.1
    let s3 := midpointStepE c a s2.2.1 s2.2.2
    let m3 := s3.1
    subdivideLoopE rest s3.2.1 s3.2.2
      (m3 :: m2 :: m1 :: c :: m2 :: m3 :: m2 :: b :: m1 :: m3 :: m1 :: a :: acc)
  | _, size, _, acc => (size, acc.reverse)

/-- Index-only projection of `subdivide`. -/
def subdivideE (size : ℕ) (indices : List ℕ) : ℕ × List ℕ :=
  subdivideLoopE indices size cacheEmpty []

/-- Index-only projection of `subdivideIter`. -/
def subdivideIterE : ℕ → ℕ × List ℕ → ℕ × List ℕ
  | 0, st => st
  | n + 1, st => subdivideIterE n (subdivideE st.1 st.2)

theorem midpointStep_proj_fst (mid : V → V → V) (a b : ℕ) (vs : Store V) (cache : Cache) :
    (midpointStep mid a b vs cache).1 = (midpointStepE a b vs.size cache).1 := by
  unfold midpointStep midpointStepE
  cases h : cacheFind cache (if a < b then (a, b) else (b, a)) <;> simp [h]

theorem midpointStep_proj_size (mid : V → V → V) (a b : ℕ) (vs : Store V) (cache : Cache) :
    (midpointStep mid a b vs cache).2.1.size = (midpointStepE a b vs.size cache).2.1 := by
  unfold midpointStep midpointStepE
  cases h : cacheFind cache (if a < b then (a, b) else (b, a)) <;> simp [h, Store.push]

theorem midpointStep_proj_cache (mid : V → V → V) (a b : ℕ) (vs : Store V) (cache : Cache) :
    (midpointStep mid a b vs cache).2.2 = (midpointStepE a b vs.size cache).2.2 := by
  unfold midpointStep midpointStepE
  cases h : cacheFind cache (if a < b then (a, b) else (b, a)) <;> simp [h]

theorem subdivideLoop_proj (mid : V → V → V) (idx : List ℕ) (vs : Store V)
    (cache : Cache) (acc : List ℕ) :
    (subdivideLoop mid idx vs cache acc).1.size = (subdivideLoopE idx vs.size cache acc).1
    ∧ (subdivideLoop mid idx vs cache acc).2 = (subdivideLoopE idx vs.size cache acc).2 := by
  induction idx, vs, cache, acc using subdivideLoop.induct mid with
  | case1 a b c rest vs cache acc v1 w1 v2 w2 v3 w3 ih =>
    simp only [subdivideLoop, subdivideLoopE]
    unfold w3 v3 w2 v2 w1 v1 at ih
    rw [ih.1, ih.2]
    simp only [midpointStep_proj_fst, midpointStep_proj_size, midpointStep_proj_cache]
    exact ⟨trivial, trivial⟩
  | case2 t vs cache acc h =>
    match t with
    | [] => exact ⟨rfl, rfl⟩
    | [_] => exact ⟨rfl, rfl⟩
    | [_, _] => exact ⟨rfl, rfl⟩
    | a :: b :: c :: rest => exact absurd rfl (h a b c rest)

theorem subdivide_proj (mid : V → V → V) (vs : Store V) (indices : List ℕ) :
    (subdivide mid vs indices).1.size = (subdivideE vs.size indices).1
    ∧ (subdivide mid vs indices).2 = (subdivideE vs.size indices).2 :=
  subdivideLoop_proj mid indices vs cacheEmpty []

theorem subdivideIter_proj (mid : V → V → V) :
    ∀ (n : ℕ) (st : Store V × List ℕ),
      (subdivideIter mid n st).1.size = (subdivideIterE n (st.1.size, st.2)).1
      ∧ (subdivideIter mid n st).2 = (subdivideIterE n (st.1.size, st.2)).2
  | 0, _ => ⟨rfl, rfl⟩
  | n + 1, st => by
    have h := subdivide_proj mid st.1 st.2
    have ih := subdivideIter_proj mid n (subdivide mid st.1 st.2)
    rw [subdivideIter, subdivideIterE]
    rw [ih.1, ih.2, h.1, h.2]
    exact ⟨rfl, rfl⟩

/-! ### Model of the RNG (`impl Rng` + `SliceRandom::shuffle`)

The source is generic over `rand::Rng`.  We model an RNG as a state type
with the two operations the clustering code uses: `rng.random::<f32>()`
(the sampled value modelled as a rational) and `SliceRandom::shuffle`,
whose behavioural contract is that the result is a permutation of the
input list. -/

structure Rng where
  σ : Type
  nextF32 : σ → ℚ × σ
  shuffle : (α : Type) → σ → List α → List α × σ
  shuffle_perm : ∀ (α : Type) (s : σ) (l : List α), (shuffle α s l).1.Perm l

/-! ### `tectonic_plates.rs` -/

/-- Model of `TectonicPlateClassification`. -/
inductive TectonicPlateClassification where
  | Oceanic : TectonicPlateClassification
  | Continental : TectonicPlateClassification
deriving DecidableEq

/-- Model of `TectonicPlate`.  The field defaults model
`TectonicPlate::default()`; `motion_axis` is never written by the
clustering code and is kept as a placeholder triple. -/
structure TectonicPlate where
  classification : TectonicPlateClassification := .Oceanic
  motion_axis : ℚ × ℚ × ℚ := (0, 0, 0)
  contained_regions : List ℕ := []
  plate_edges : Finset ℕ := ∅
deriving DecidableEq

/-- Model of `multi_insert_edge`'s per-element toggle:
`if !set.insert(v) { set.remove(v) }`. -/
def toggleEdge (s : Finset ℕ) (v : ℕ) : Finset ℕ :=
  if v ∈ s then s.erase v else insert v s

/-- Model of `multi_insert_edge`. -/
def multiInsertEdge (s : Finset ℕ) (values : List ℕ) : Finset ℕ :=
  values.foldl toggleEdge s

/-- Model of `multi_contains`. -/
def multiContains (s : Finset ℕ) (values : List ℕ) : Bool :=
  values.any (fun e => decide (e ∈ s))

/-- Model of `TectonicPlate::borders` (present in the source; unused by
`cluster_regions`). -/
def TectonicPlate.borders (p q : TectonicPlate) : Bool :=
  ∃ e ∈ p.plate_edges, e ∈ q.plate_edges

/-- Model of `TectonicPlate::assign_classification`:
`if rng.random::<f32>() > 0.6 { Continental } else { Oceanic }`.
The threshold `3 / 5` models the literal `0.6`. -/
def assignClassification (R : Rng) (s : R.σ) (p : TectonicPlate) :
    TectonicPlate × R.σ :=
  let v := R.nextF32 s
  (if v.1 > 3 / 5 then { p with classification := .Continental }
   else { p with classification := .Oceanic }, v.2)

/-- The `plates.iter_mut().for_each(|plate| plate.assign_classification(rng))`
loop (in order). -/
def assignAllPlates (R : Rng) : R.σ → List TectonicPlate → List TectonicPlate × R.σ
  | s, [] => ([], s)
  | s, p :: ps =>
    let q := assignClassification R s p
    let rest := assignAllPlates R q.2 ps
    (q.1 :: rest.1, rest.2)

/-- Edge list of the region at index `i` (`regions[region_index].edges`; the
clustering code only ever indexes in bounds, so the out-of-range default is
irrelevant). -/
def edgesAt (regions : List (Region V)) (i : ℕ) : List ℕ :=
  ((regions.get? i).map Region.edges).getD []

/-- The seeding loop `for i in 0..num_plates { ... pop().unwrap() ... }`.
The queue holds the shuffled region indices with the Rust `Vec`'s *back*
at the head (so `pop()` is head-consumption); `none` models the
`unwrap` panic on an empty queue. -/
def seedLoop (regions : List (Region V)) :
    List TectonicPlate → List ℕ → Option (List TectonicPlate × List ℕ)
  | [], queue => some ([], queue)
  | _ :: _, [] => none
  | p :: ps, ri :: rest =>
    (seedLoop regions ps rest).map (fun pr =>
      ({ p with contained_regions := p.contained_regions ++ [ri],
                plate_edges := multiInsertEdge p.plate_edges (edgesAt regions ri) } :: pr.1,
       pr.2))

/-- The seeding phase of `cluster_regions` (lines 58-71): classify the
`num_plates` default plates, shuffle `(0..regions.len()).collect()`, and
seed each plate with one popped region.  The RNG state is returned even on
the panic path. -/
def seedPhase (R : Rng) (s : R.σ) (regions : List (Region V)) (numPlates : ℕ) :
    Option (List TectonicPlate × List ℕ) × R.σ :=
  let ap := assignAllPlates R s (List.replicate numPlates {})
  let sh := R.shuffle ℕ ap.2 (List.range regions.length)
  (seedLoop regions ap.1 sh.1.reverse, sh.2)

/-- The `plates.iter_mut().find(...)` of the growth loop: updates the first
plate whose boundary intersects the region's edges, keeping plate order;
`none` if there is no such plate. -/
def assignFirst (regions : List (Region V)) (ri : ℕ) :
    List TectonicPlate → Option (List TectonicPlate)
  | [] => none
  | p :: ps =>
    if multiContains p.plate_edges (edgesAt regions ri) then
      some ({ p with contained_regions := p.contained_regions ++ [ri],
                     plate_edges := multiInsertEdge p.plate_edges (edgesAt regions ri) } :: ps)
    else
      (assignFirst regions ri ps).map (p :: ·)

/-- The `while let Some(region_index) = region_indices.pop()` growth loop.
As in `seedLoop` the queue's head is the Rust `Vec`'s back, so
`region_indices.insert(0, region_index)` is appending at the end.  The
loop has no termination guarantee in the source, so it is fuelled;
`none` means the fuel ran out. -/
def growLoop (R : Rng) (regions : List (Region V)) :
    ℕ → R.σ → List ℕ → List TectonicPlate → Option (List TectonicPlate)
  | _, _, [], plates => some plates
  | 0, _, _ :: _, _ => none
  | fuel + 1, s, ri :: rest, plates =>
    match assignFirst regions ri plates with
    | some plates1 =>
      let sh := R.shuffle TectonicPlate s plates1
      growLoop R regions fuel sh.2 rest sh.1
    | none => growLoop R regions fuel s (rest ++ [ri]) plates

/-- Model of `cluster_regions`, fuelled.  `none` is either the seeding
`unwrap` panic (`num_plates > regions.len()`) or growth-loop fuel
exhaustion. -/
def clusterRegions (R : Rng) (s : R.σ) (regions : List (Region V))
    (numPlates fuel : ℕ) : Option (List TectonicPlate) :=
  match seedPhase R s regions numPlates with
  | (none, _) => none
  | (some (plates, queue), s2) => growLoop R regions fuel s2 queue plates

/-- The set of values occurring an odd number of times in `l` (the
specification's characterization of the parity-toggle boundary set). -/
def oddKeys (l : List ℕ) : Finset ℕ :=
  l.toFinset.filter (fun e => l.count e % 2 = 1)

/-! ### `utils/packed_vec3.rs`: the fixed-point packing -/

/-- Per-axis encoding of `From<DVec3> for PackedVec3`: split into `floor`
and scaled fractional remainder (`(value - ints) * 16384.0`, truncated
toward zero by the `as i64` cast; the remainder is nonnegative, so this
is the floor), recombine, then truncate two's-complement style to `w`
bits (`x & ((1 << w) - 1)` on `i64`).  Coordinates are modelled as
rationals; for in-range inputs every floating-point step of the source
is exact. -/
def encodeAxis (w : ℕ) (v : ℚ) : ℕ :=
  let ints : ℤ := ⌊v⌋
  let decs : ℚ := (v - (ints : ℚ)) * 16384
  let recombined : ℤ := ints * 16384 + ⌊decs⌋
  (recombined % ((2 : ℤ) ^ w)).toNat

/-- The 128-bit packed word
`(x_packed << (43 + 42)) | (y_packed << 42) | z_packed`. -/
def packVec3 (x y z : ℚ) : ℕ :=
  (encodeAxis 43 x <<< (43 + 42)) ||| (encodeAxis 43 y <<< 42) ||| encodeAxis 42 z

/-- Modelled from the spec: the repository contains no decoder for
`PackedVec3` (the packed word is handed to the GPU as four `u32` lanes);
the specification states that decoding must extract each field,
sign-extend it from its bit width, and divide by 16384.  This is the
sign extension of a `w`-bit field. -/
def signExtend (w : ℕ) (f : ℕ) : ℤ :=
  if f < 2 ^ (w - 1) then (f : ℤ) else (f : ℤ) - 2 ^ w

/-- Modelled from the spec: full decoder — extract the 43/43/42-bit fields
packed MSB-first as `x : y : z`, sign-extend each, divide by 16384. -/
def decodeVec3 (d : ℕ) : ℚ × ℚ × ℚ :=
  let xf := (d >>> (43 + 42)) &&& (2 ^ 43 - 1)
  let yf := (d >>> 42) &&& (2 ^ 43 - 1)
  let zf := d &&& (2 ^ 42 - 1)
  ((signExtend 43 xf : ℚ) / 16384, (signExtend 43 yf : ℚ) / 16384,
    (signExtend 42 zf : ℚ) / 16384)

/-! ## Theorems -/

theorem edgeKey_eq_arith (a b : ℕ) (hb : max a b < 65536) :
    edgeKey a b = 65536 * min a b + max a b := by
  have h := Nat.mul_add_lt_is_or (i := 16) (by omega : max a b < 2 ^ 16) (min a b)
  rw [edgeKey, Nat.shiftLeft_eq, Nat.mul_comm, ← h]

theorem multiset_pair_eq_pair (a b c d : ℕ) :
    ({a, b} : Multiset ℕ) = {c, d} ↔ (a = c ∧ b = d) ∨ (a = d ∧ b = c) := by
  constructor
  · intro h
    rcases Multiset.cons_eq_cons.mp h with ⟨rfl, h2⟩ | ⟨_, cs, h1, h2⟩
    · left
      exact ⟨rfl, by simpa using h2⟩
    · rw [Multiset.singleton_eq_cons_iff] at h1 h2
      exact Or.inr ⟨h2.1.symm, h1.1⟩
  · rintro (⟨rfl, rfl⟩ | ⟨rfl, rfl⟩)
    · rfl
    · exact Multiset.cons_swap a b 0

/-- C6: for vertex indices below `2 ^ 16`, the canonical edge key of
`Region::new` is order-independent, and two keys are equal exactly when
the underlying unordered index pairs are equal. -/
theorem edgeKey_canonical (a b c d : ℕ) (ha : a < 65536) (hb : b < 65536)
    (hc : c < 65536) (hd : d < 65536) :
    edgeKey a b = edgeKey b a ∧
    (edgeKey a b = edgeKey c d ↔ ({a, b} : Multiset ℕ) = {c, d}) := by
  have hab : max a b < 65536 := by omega
  have hcd : max c d < 65536 := by omega
  have hba : max b a < 65536 := by omega
  refine ⟨?_, ?_⟩
  · rw [edgeKey_eq_arith a b hab, edgeKey_eq_arith b a hba, Nat.min_comm, Nat.max_comm]
  · rw [edgeKey_eq_arith a b hab, edgeKey_eq_arith c d hcd, multiset_pair_eq_pair]
    constructor
    · intro h
      omega
    · rintro (⟨rfl, rfl⟩ | ⟨rfl, rfl⟩)
      · rfl
      · rw [Nat.min_comm, Nat.max_comm]

/-- Witness for the edge-key theorem at a concrete pair of pairs. -/
theorem edgeKey_canonical_witness :
    edgeKey 7 9 = edgeKey 9 7 ∧
    (edgeKey 7 9 = edgeKey 9 7 ↔ ({7, 9} : Multiset ℕ) = {9, 7}) :=
  edgeKey_canonical 7 9 9 7 (by decide) (by decide) (by decide) (by decide)

/-- C9: `assign_classification` sets `Continental` exactly when the drawn
sample is strictly greater than the threshold `0.6`, and `Oceanic`
otherwise. -/
theorem assignClassification_threshold (R : Rng) (s : R.σ) (p : TectonicPlate) :
    ((assignClassification R s p).1.classification
        = TectonicPlateClassification.Continental ↔ (R.nextF32 s).1 > 3 / 5)
    ∧ ((assignClassification R s p).1.classification
        = TectonicPlateClassification.Oceanic ↔ ¬((R.nextF32 s).1 > 3 / 5)) := by
  unfold assignClassification
  by_cases h : (R.nextF32 s).1 > 3 / 5 <;> simp [h]

theorem assignAllPlates_length (R : Rng) (s : R.σ) (plates : List TectonicPlate) :
    (assignAllPlates R s plates).1.length = plates.length := by
  induction plates generalizing s with
  | nil => rfl
  | cons p ps ih => simp [assignAllPlates, ih]

theorem seedLoop_isSome_iff (regions : List (Region V)) :
    ∀ (plates : List TectonicPlate) (queue : List ℕ),
      (seedLoop regions plates queue).isSome = true ↔ plates.length ≤ queue.length
  | [], _ => by simp [seedLoop]
  | _ :: _, [] => by simp [seedLoop]
  | p :: ps, ri :: rest => by
    have ih := seedLoop_isSome_iff regions ps rest
    simp only [seedLoop, List.length_cons]
    cases h : seedLoop regions ps rest <;> rw [h] at ih <;> simp at ih ⊢ <;> omega

/-- C10: the seeding loop's `region_indices.pop().unwrap()` never panics
exactly when `num_plates` is at most the region count: the seeding phase
succeeds iff `numPlates ≤ regions.length` (and conversely fails, modelling
the `unwrap` panic, when `numPlates > regions.length`). -/
theorem seedPhase_no_panic_iff (V : Type) (R : Rng) (s : R.σ)
    (regions : List (Region V)) (numPlates : ℕ) :
    ((seedPhase R s regions numPlates).1.isSome = true ↔ numPlates ≤ regions.length) := by
  unfold seedPhase
  rw [seedLoop_isSome_iff]
  rw [assignAllPlates_length, List.length_replicate, List.length_reverse,
    (R.shuffle_perm ℕ _ _).length_eq, List.length_range]

/-! ### The RNG call-order observer for the seeding step (C8) -/

/-- Events recorded by the observing RNG: a `random::<f32>()` draw, or a
`shuffle` call on a slice of the given length. -/
inductive RngEvent where
  | f32 : RngEvent
  | shuffleCall : ℕ → RngEvent
deriving DecidableEq

/-- An RNG whose state is the list of calls made so far: it returns `0` for
every `f32` draw and leaves every slice unshuffled, recording each call. -/
@[reducible] def traceRng : Rng where
  σ := List RngEvent
  nextF32 s := (0, s ++ [RngEvent.f32])
  shuffle _ s l := (l, s ++ [RngEvent.shuffleCall l.length])
  shuffle_perm _ _ _ := List.Perm.refl _

/-- A concrete two-region input (two triangles sharing edge key `3`). -/
def regionsPairU : List (Region Unit) :=
  [⟨((), (), ()), [1, 2, 3]⟩, ⟨((), (), ()), [3, 4, 5]⟩]

/-- The call trace the seeding step produces on the two-region input with
two plates, starting from an empty trace. -/
def seedTracePair : List RngEvent :=
  (seedPhase traceRng [] regionsPairU 2).2

/-- C8 counterexample: in the seeding step the RNG is consumed by the two
classification draws *before* the permutation shuffle — the recorded call
trace is `[f32, f32, shuffle 2]`, not the claimed shuffle-first order. -/
theorem seedPhase_rng_order_cex :
    seedTracePair = [RngEvent.f32, RngEvent.f32, RngEvent.shuffleCall 2]
    ∧ seedTracePair ≠ [RngEvent.shuffleCall 2, RngEvent.f32, RngEvent.f32] := by
  exact ⟨by decide, by decide⟩

theorem assignAllPlates_trace (plates : List TectonicPlate) :
    ∀ (t0 : List RngEvent),
      (assignAllPlates traceRng t0 plates).2
        = t0 ++ List.replicate plates.length RngEvent.f32 := by
  induction plates with
  | nil => simp [assignAllPlates]
  | cons p ps ih =>
    intro t0
    simp only [assignAllPlates, ih, List.length_cons]
    simp [assignClassification, traceRng, List.replicate_succ]

/-- C8 amended: in the seeding step of `cluster_regions` the RNG is consumed
in this order — first the `num_plates` per-plate classification draws (one
per plate, in plate order), *then* the draw of the random permutation of all
region indices; the seeding pops themselves consume no randomness. -/
theorem seedPhase_rng_order (V : Type) (regions : List (Region V)) (numPlates : ℕ)
    (t0 : List RngEvent) :
    (seedPhase traceRng t0 regions numPlates).2
      = t0 ++ List.replicate numPlates RngEvent.f32
          ++ [RngEvent.shuffleCall regions.length] := by
  have h0 : (seedPhase traceRng t0 regions numPlates).2
      = (assignAllPlates traceRng t0 (List.replicate numPlates {})).2
        ++ [RngEvent.shuffleCall (List.range regions.length).length] := rfl
  rw [h0, assignAllPlates_trace, List.length_replicate, List.length_range,
    List.append_assoc]

/-! ### Parity of the plate boundary sets (C1) -/

theorem mem_oddKeys {l : List ℕ} {e : ℕ} : e ∈ oddKeys l ↔ l.count e % 2 = 1 := by
  simp only [oddKeys, Finset.mem_filter, List.mem_toFinset]
  constructor
  · exact fun h => h.2
  · intro h
    refine ⟨?_, h⟩
    by_contra hmem
    rw [List.count_eq_zero_of_not_mem hmem] at h
    omega

theorem oddKeys_nil : oddKeys [] = ∅ := rfl

theorem toggleEdge_symmDiff (s : Finset ℕ) (v : ℕ) : toggleEdge s v = s ∆ {v} := by
  unfold toggleEdge
  by_cases h : v ∈ s <;> simp only [h, if_true, if_false] <;> ext e <;>
    by_cases he : e = v <;> simp [Finset.mem_symmDiff, he, h]

theorem oddKeys_cons (v : ℕ) (l : List ℕ) : oddKeys (v :: l) = {v} ∆ oddKeys l := by
  ext e
  simp only [mem_oddKeys, Finset.mem_symmDiff, Finset.mem_singleton, List.count_cons,
    mem_oddKeys]
  by_cases h : e = v
  · simp [h]
    omega
  · have h2 : ¬(v = e) := fun hh => h hh.symm
    simp [h, h2]

theorem oddKeys_append (l1 l2 : List ℕ) :
    oddKeys (l1 ++ l2) = oddKeys l1 ∆ oddKeys l2 := by
  induction l1 with
  | nil =>
    rw [List.nil_append, oddKeys_nil, ← Finset.bot_eq_empty, bot_symmDiff]
  | cons v t ih =>
    rw [List.cons_append, oddKeys_cons, ih, oddKeys_cons, symmDiff_assoc]

theorem multiInsertEdge_symmDiff (l : List ℕ) :
    ∀ s : Finset ℕ, multiInsertEdge s l = s ∆ oddKeys l := by
  induction l with
  | nil =>
    intro s
    show s = s ∆ oddKeys []
    rw [oddKeys_nil, ← Finset.bot_eq_empty, symmDiff_bot]
  | cons v t ih =>
    intro s
    show multiInsertEdge (toggleEdge s v) t = _
    rw [ih, toggleEdge_symmDiff, oddKeys_cons, symmDiff_assoc]

/-- The parity invariant: a plate's boundary set is exactly the set of edge
keys with odd incidence count over the regions it has absorbed. -/
def regionOdd (regions : List (Region V)) (p : TectonicPlate) : Prop :=
  p.plate_edges = oddKeys (p.contained_regions.flatMap (edgesAt regions))

theorem regionOdd_update {regions : List (Region V)} {p : TectonicPlate} (ri : ℕ)
    (hp : regionOdd regions p) :
    regionOdd regions
      { p with contained_regions := p.contained_regions ++ [ri],
               plate_edges := multiInsertEdge p.plate_edges (edgesAt regions ri) } := by
  unfold regionOdd at hp ⊢
  show multiInsertEdge p.plate_edges (edgesAt regions ri) = _
  rw [multiInsertEdge_symmDiff, hp, List.flatMap_append, oddKeys_append]
  congr 1
  simp

theorem assignFirst_parity {regions : List (Region V)} {ri : ℕ} :
    ∀ {plates plates' : List TectonicPlate},
      assignFirst regions ri plates = some plates' →
      (∀ p ∈ plates, regionOdd regions p) → ∀ p ∈ plates', regionOdd regions p := by
  intro plates
  induction plates with
  | nil => intro plates' h; exact absurd h (by simp [assignFirst])
  | cons p ps ih =>
    intro plates' h hall
    rw [assignFirst] at h
    split at h
    · cases h
      intro q hq
      rcases List.mem_cons.mp hq with rfl | hq
      · exact regionOdd_update ri (hall p (List.mem_cons_self p ps))
      · exact hall q (List.mem_cons_of_mem p hq)
    · rcases Option.map_eq_some'.mp h with ⟨ps', hps', rfl⟩
      intro q hq
      rcases List.mem_cons.mp hq with rfl | hq
      · exact hall q (List.mem_cons_self q ps)
      · exact ih hps' (fun r hr => hall r (List.mem_cons_of_mem p hr)) q hq

theorem growLoop_parity (R : Rng) (regions : List (Region V)) :
    ∀ (fuel : ℕ) (s : R.σ) (queue : List ℕ) (plates out : List TectonicPlate),
      growLoop R regions fuel s queue plates = some out →
      (∀ p ∈ plates, regionOdd regions p) → ∀ p ∈ out, regionOdd regions p := by
  intro fuel
  induction fuel with
  | zero =>
    intro s queue plates out h hall
    cases queue with
    | nil => cases h; exact hall
    | cons ri rest => exact absurd h (by simp [growLoop])
  | succ fuel ih =>
    intro s queue plates out h hall
    cases queue with
    | nil => cases h; exact hall
    | cons ri rest =>
      rw [growLoop] at h
      rcases h' : assignFirst regions ri plates with _ | plates1 <;> rw [h'] at h
      · exact ih _ _ _ _ h hall
      · refine ih _ _ _ _ h ?_
        intro p hp
        have hperm := R.shuffle_perm TectonicPlate s plates1
        exact assignFirst_parity h' hall p (hperm.mem_iff.mp hp)

theorem seedLoop_parity (regions : List (Region V)) :
    ∀ (plates : List TectonicPlate) (queue : List ℕ)
      (plates' : List TectonicPlate) (queue' : List ℕ),
      seedLoop regions plates queue = some (plates', queue') →
      (∀ p ∈ plates, regionOdd regions p) → ∀ p ∈ plates', regionOdd regions p := by
  intro plates
  induction plates with
  | nil =>
    intro queue plates' queue' h hall
    cases h
    intro p hp
    exact absurd hp (List.not_mem_nil p)
  | cons p ps ih =>
    intro queue plates' queue' h hall
    cases queue with
    | nil => exact absurd h (by simp [seedLoop])
    | cons ri rest =>
      rw [seedLoop] at h
      rcases Option.map_eq_some'.mp h with ⟨⟨ps', q'⟩, hps', heq⟩
      cases heq
      intro q hq
      rcases List.mem_cons.mp hq with rfl | hq
      · exact regionOdd_update ri (hall p (List.mem_cons_self p ps))
      · exact ih rest ps' q' hps' (fun r hr => hall r (List.mem_cons_of_mem p hr)) q hq

theorem assignClassification_fields (R : Rng) (s : R.σ) (p : TectonicPlate) :
    (assignClassification R s p).1.contained_regions = p.contained_regions
    ∧ (assignClassification R s p).1.plate_edges = p.plate_edges := by
  unfold assignClassification
  by_cases h : (R.nextF32 s).1 > 3 / 5 <;> simp [h]

theorem assignAllPlates_parity (R : Rng) (regions : List (Region V)) :
    ∀ (plates : List TectonicPlate) (s : R.σ),
      (∀ p ∈ plates, regionOdd regions p) →
      ∀ p ∈ (assignAllPlates R s plates).1, regionOdd regions p := by
  intro plates
  induction plates with
  | nil => intro s _ p hp; exact absurd hp (List.not_mem_nil p)
  | cons p ps ih =>
    intro s hall q hq
    rw [assignAllPlates] at hq
    rcases List.mem_cons.mp hq with rfl | hq
    · have hp := hall p (List.mem_cons_self p ps)
      unfold regionOdd at hp ⊢
      rw [(assignClassification_fields R s p).1, (assignClassification_fields R s p).2, hp]
    · exact ih _ (fun r hr => hall r (List.mem_cons_of_mem p hr)) q hq

/-- C1: the parity-toggle boundary rule.  `multi_insert_edge` computes the
symmetric difference with the odd-occurrence set of the inserted keys
(toggling membership per key), and consequently every plate produced by
`cluster_regions` has `plate_edges` equal to exactly the set of edge keys
occurring an odd number of times across the edge triples of the regions
absorbed into it (the invariant is established by seeding and preserved by
every growth step). -/
theorem cluster_parity :
    (∀ (s : Finset ℕ) (l : List ℕ), multiInsertEdge s l = s ∆ oddKeys l)
    ∧ (∀ (V : Type) (R : Rng) (st : R.σ) (regions : List (Region V))
        (numPlates fuel : ℕ) (out : List TectonicPlate),
        clusterRegions R st regions numPlates fuel = some out →
        ∀ p ∈ out,
          p.plate_edges = oddKeys (p.contained_regions.flatMap (edgesAt regions))) := by
  refine ⟨fun s l => multiInsertEdge_symmDiff l s, ?_⟩
  intro V R st regions numPlates fuel out h p hp
  rw [clusterRegions] at h
  rcases hsp : seedPhase R st regions numPlates with ⟨o, s2⟩
  rw [hsp] at h
  rcases o with _ | ⟨plates, queue⟩
  · exact absurd h (by simp)
  · have hseed : ∀ q ∈ plates, regionOdd regions q := by
      have hsl : seedLoop regions
          (assignAllPlates R st (List.replicate numPlates {})).1
          (R.shuffle ℕ (assignAllPlates R st (List.replicate numPlates {})).2
            (List.range regions.length)).1.reverse = some (plates, queue) := by
        have : seedPhase R st regions numPlates
            = (seedLoop regions
                (assignAllPlates R st (List.replicate numPlates {})).1
                (R.shuffle ℕ (assignAllPlates R st (List.replicate numPlates {})).2
                  (List.range regions.length)).1.reverse,
               (R.shuffle ℕ (assignAllPlates R st (List.replicate numPlates {})).2
                 (List.range regions.length)).2) := rfl
        rw [this] at hsp
        exact (Prod.mk.injEq _ _ _ _).mp hsp |>.1
      refine seedLoop_parity regions _ _ _ _ hsl ?_
      refine assignAllPlates_parity R regions _ _ ?_
      intro q hq
      rw [List.eq_of_mem_replicate hq]
      rfl
    exact growLoop_parity R regions fuel s2 queue plates out h hseed p hp

/-! ### The partition invariant (C2) -/

theorem assignFirst_flatMap {regions : List (Region V)} {ri : ℕ} :
    ∀ {plates plates' : List TectonicPlate},
      assignFirst regions ri plates = some plates' →
      (plates'.flatMap (·.contained_regions)).Perm
        (ri :: plates.flatMap (·.contained_regions)) := by
  intro plates
  induction plates with
  | nil => intro plates' h; exact absurd h (by simp [assignFirst])
  | cons p ps ih =>
    intro plates' h
    rw [assignFirst] at h
    split at h
    · cases h
      simp only [List.flatMap_cons]
      calc (p.contained_regions ++ [ri]) ++ ps.flatMap (·.contained_regions)
          ~ (ri :: p.contained_regions) ++ ps.flatMap (·.contained_regions) :=
            (List.perm_append_singleton ri p.contained_regions).append_right _
        _ = ri :: (p.contained_regions ++ ps.flatMap (·.contained_regions)) := rfl
    · rcases Option.map_eq_some'.mp h with ⟨ps', hps', rfl⟩
      simp only [List.flatMap_cons]
      calc p.contained_regions ++ ps'.flatMap (·.contained_regions)
          ~ p.contained_regions ++ (ri :: ps.flatMap (·.contained_regions)) :=
            (ih hps').append_left _
        _ ~ ri :: (p.contained_regions ++ ps.flatMap (·.contained_regions)) :=
            List.perm_middle

theorem growLoop_flatMap (R : Rng) (regions : List (Region V)) :
    ∀ (fuel : ℕ) (s : R.σ) (queue : List ℕ) (plates out : List TectonicPlate),
      growLoop R regions fuel s queue plates = some out →
      (out.flatMap (·.contained_regions)).Perm
        (queue ++ plates.flatMap (·.contained_regions)) := by
  intro fuel
  induction fuel with
  | zero =>
    intro s queue plates out h
    cases queue with
    | nil => cases h; exact (List.Perm.refl _)
    | cons ri rest => exact absurd h (by simp [growLoop])
  | succ fuel ih =>
    intro s queue plates out h
    cases queue with
    | nil => cases h; exact (List.Perm.refl _)
    | cons ri rest =>
      rw [growLoop] at h
      rcases h' : assignFirst regions ri plates with _ | plates1 <;> rw [h'] at h
      · calc out.flatMap (·.contained_regions)
            ~ (rest ++ [ri]) ++ plates.flatMap (·.contained_regions) := ih _ _ _ _ h
          _ = rest ++ ([ri] ++ plates.flatMap (·.contained_regions)) := by
              rw [List.append_assoc]
          _ ~ ri :: rest ++ plates.flatMap (·.contained_regions) :=
              (List.perm_middle).trans (List.Perm.refl _)
      · have hsh : ((R.shuffle TectonicPlate s plates1).1.flatMap
            (·.contained_regions)).Perm (plates1.flatMap (·.contained_regions)) :=
          (R.shuffle_perm TectonicPlate s plates1).flatMap_right _
        calc out.flatMap (·.contained_regions)
            ~ rest ++ (R.shuffle TectonicPlate s plates1).1.flatMap
                (·.contained_regions) := ih _ _ _ _ h
          _ ~ rest ++ plates1.flatMap (·.contained_regions) := hsh.append_left rest
          _ ~ rest ++ (ri :: plates.flatMap (·.contained_regions)) :=
              (assignFirst_flatMap h').append_left rest
          _ ~ ri :: rest ++ plates.flatMap (·.contained_regions) := List.perm_middle

theorem seedLoop_flatMap (regions : List (Region V)) :
    ∀ (plates : List TectonicPlate) (queue : List ℕ)
      (plates' : List TectonicPlate) (queue' : List ℕ),
      seedLoop regions plates queue = some (plates', queue') →
      (plates'.flatMap (·.contained_regions) ++ queue').Perm
        (plates.flatMap (·.contained_regions) ++ queue) := by
  intro plates
  induction plates with
  | nil =>
    intro queue plates' queue' h
    cases h
    exact List.Perm.refl _
  | cons p ps ih =>
    intro queue plates' queue' h
    cases queue with
    | nil => exact absurd h (by simp [seedLoop])
    | cons ri rest =>
      rw [seedLoop] at h
      rcases Option.map_eq_some'.mp h with ⟨⟨ps', q'⟩, hps', heq⟩
      cases heq
      simp only [List.flatMap_cons]
      calc ((p.contained_regions ++ [ri]) ++ ps'.flatMap (·.contained_regions)) ++ q'
          = p.contained_regions ++ ([ri] ++ (ps'.flatMap (·.contained_regions) ++ q'))
            := by simp [List.append_assoc]
        _ ~ p.contained_regions ++ ([ri] ++ (ps.flatMap (·.contained_regions) ++ rest))
            := ((ih rest ps' q' hps').append_left [ri]).append_left p.contained_regions
        _ ~ p.contained_regions ++ (ps.flatMap (·.contained_regions) ++ (ri :: rest))
            := by
              refine List.Perm.append_left p.contained_regions ?_
              calc [ri] ++ (ps.flatMap (·.contained_regions) ++ rest)
                  = ri :: (ps.flatMap (·.contained_regions) ++ rest) := rfl
                _ ~ ps.flatMap (·.contained_regions) ++ (ri :: rest) :=
                    List.perm_middle.symm
        _ = (p.contained_regions ++ ps.flatMap (·.contained_regions)) ++ (ri :: rest)
            := by rw [List.append_assoc]

theorem assignAllPlates_flatMap (R : Rng) :
    ∀ (plates : List TectonicPlate) (s : R.σ),
      (assignAllPlates R s plates).1.flatMap (·.contained_regions)
        = plates.flatMap (·.contained_regions) := by
  intro plates
  induction plates with
  | nil => intro s; rfl
  | cons p ps ih =>
    intro s
    simp only [assignAllPlates, List.flatMap_cons, ih,
      (assignClassification_fields R s p).1]

theorem replicate_default_flatMap (n : ℕ) :
    (List.replicate n ({} : TectonicPlate)).flatMap (·.contained_regions) = [] := by
  induction n with
  | zero => rfl
  | succ n ih => simp [List.replicate_succ, ih]

/-- C2: whenever `cluster_regions` terminates (with `1 ≤ num_plates ≤
regions.len()`), the concatenation of `contained_regions` over the returned
plates is a permutation of `0..regions.len()`: every region index lands in
exactly one plate, exactly once. -/
theorem cluster_partition (V : Type) (R : Rng) (st : R.σ) (regions : List (Region V))
    (numPlates fuel : ℕ) (out : List TectonicPlate)
    (h1 : 1 ≤ numPlates) (h2 : numPlates ≤ regions.length)
    (hout : clusterRegions R st regions numPlates fuel = some out) :
    (out.flatMap (·.contained_regions)).Perm (List.range regions.length) := by
  rw [clusterRegions] at hout
  rcases hsp : seedPhase R st regions numPlates with ⟨o, s2⟩
  rw [hsp] at hout
  rcases o with _ | ⟨plates, queue⟩
  · exact absurd hout (by simp)
  · have hsl : seedLoop regions
        (assignAllPlates R st (List.replicate numPlates {})).1
        (R.shuffle ℕ (assignAllPlates R st (List.replicate numPlates {})).2
          (List.range regions.length)).1.reverse = some (plates, queue)
        ∧ (R.shuffle ℕ (assignAllPlates R st (List.replicate numPlates {})).2
            (List.range regions.length)).2 = s2 := by
      have hdef : seedPhase R st regions numPlates
          = (seedLoop regions
              (assignAllPlates R st (List.replicate numPlates {})).1
              (R.shuffle ℕ (assignAllPlates R st (List.replicate numPlates {})).2
                (List.range regions.length)).1.reverse,
             (R.shuffle ℕ (assignAllPlates R st (List.replicate numPlates {})).2
               (List.range regions.length)).2) := rfl
      rw [hdef] at hsp
      exact ⟨((Prod.mk.injEq _ _ _ _).mp hsp).1, ((Prod.mk.injEq _ _ _ _).mp hsp).2⟩
    have hseed : (plates.flatMap (·.contained_regions) ++ queue).Perm
        (List.range regions.length) := by
      have h3 := seedLoop_flatMap regions _ _ _ _ hsl.1
      rw [assignAllPlates_flatMap, replicate_default_flatMap, List.nil_append] at h3
      refine h3.trans ?_
      exact (List.reverse_perm _).trans (R.shuffle_perm ℕ _ (List.range regions.length))
    calc out.flatMap (·.contained_regions)
        ~ queue ++ plates.flatMap (·.contained_regions) :=
          growLoop_flatMap R regions fuel s2 queue plates out hout
      _ ~ plates.flatMap (·.contained_regions) ++ queue := List.perm_append_comm
      _ ~ List.range regions.length := hseed

/-! ### Concrete witnesses for the clustering theorems -/

/-- A deterministic RNG model: every `f32` draw is `0`, every shuffle is the
identity permutation. -/
def idRng : Rng where
  σ := Unit
  nextF32 _ := (0, ())
  shuffle _ _ l := (l, ())
  shuffle_perm _ _ _ := List.Perm.refl _

theorem idRng_classify (p : TectonicPlate) :
    assignClassification idRng () p = ({ p with classification := .Oceanic }, ()) := by
  show (if (0 : ℚ) > 3 / 5 then ({ p with classification := .Continental } : TectonicPlate)
      else { p with classification := .Oceanic }, ()) = _
  rw [if_neg (show ¬((0 : ℚ) > 3 / 5) by norm_num)]

/-- The single plate produced by `cluster_regions` on `regionsPairU` with
one plate under `idRng`. -/
def pairPlate : TectonicPlate :=
  { classification := .Oceanic, motion_axis := (0, 0, 0),
    contained_regions := [1, 0], plate_edges := {2, 1, 5, 4} }

/-- Witness for the parity theorem: a concrete two-region clustering run. -/
theorem cluster_parity_witness :
    pairPlate.plate_edges
      = oddKeys (pairPlate.contained_regions.flatMap (edgesAt regionsPairU)) := by
  have hA : assignAllPlates idRng () (List.replicate 1 ({} : TectonicPlate))
      = ([{}], ()) := by
    show ((assignClassification idRng () {}).1 :: ([] : List TectonicPlate), ())
      = ([{}], ())
    rw [idRng_classify]
  have hc : clusterRegions idRng () regionsPairU 1 5 = some [pairPlate] := by
    unfold clusterRegions seedPhase
    rw [hA]
    rfl
  exact cluster_parity.2 Unit idRng () regionsPairU 1 5 [pairPlate] hc pairPlate (by simp)

/-- The two plates produced by `cluster_regions` on `regionsPairU` with two
plates under `idRng`. -/
def pairPlates2 : List TectonicPlate :=
  [{ classification := .Oceanic, motion_axis := (0, 0, 0),
     contained_regions := [1], plate_edges := {5, 4, 3} },
   { classification := .Oceanic, motion_axis := (0, 0, 0),
     contained_regions := [0], plate_edges := {3, 2, 1} }]

/-- Witness for the partition theorem: a concrete two-plate clustering run. -/
theorem cluster_partition_witness :
    (pairPlates2.flatMap (·.contained_regions)).Perm
      (List.range regionsPairU.length) := by
  have hA : assignAllPlates idRng () (List.replicate 2 ({} : TectonicPlate))
      = ([{}, {}], ()) := by
    show ((assignClassification idRng () {}).1
        :: ((assignClassification idRng () {}).1 :: ([] : List TectonicPlate)), ())
      = ([{}, {}], ())
    rw [idRng_classify]
  have hc : clusterRegions idRng () regionsPairU 2 5 = some pairPlates2 := by
    unfold clusterRegions seedPhase
    rw [hA]
    rfl
  exact cluster_partition Unit idRng () regionsPairU 2 5 pairPlates2 (by decide)
    (by decide) hc

/-! ### Adjacency counts on the base icosahedron (C7) -/

/-- Edge-array intersection test underlying `Region::borders`. -/
def edgesIntersect (e1 e2 : List ℕ) : Bool :=
  e1.any (fun e => e2.contains e)

/-- The `regions[i].borders(&regions[j])` test on the region list (false out
of range). -/
def bordersIdx (regions : List (Region V)) (i j : ℕ) : Bool :=
  match regions.get? i, regions.get? j with
  | some a, some b => a.borders b
  | _, _ => false

/-- How many other regions border region `i`. -/
def bordersCount (regions : List (Region V)) (i : ℕ) : ℕ :=
  ((List.range regions.length).filter
    (fun j => decide (j ≠ i) && bordersIdx regions i j)).length

/-- The `borders` test seen through the edge arrays only. -/
def bordersIdxE (E : List (List ℕ)) (i j : ℕ) : Bool :=
  match E.get? i, E.get? j with
  | some x, some y => edgesIntersect x y
  | _, _ => false

theorem bordersIdx_eq_E (regions : List (Region V)) (i j : ℕ) :
    bordersIdx regions i j = bordersIdxE (regions.map (·.edges)) i j := by
  unfold bordersIdx bordersIdxE
  rw [List.get?_map, List.get?_map]
  cases regions.get? i <;> cases regions.get? j <;> rfl

/-- The edge triple determined by a 3-element index slice (the index-only
content of `Region::new`). -/
def regionEdgesOf (idx : List ℕ) : List ℕ :=
  [edgeKey (idx.getD 0 0) (idx.getD 1 0), edgeKey (idx.getD 1 0) (idx.getD 2 0),
   edgeKey (idx.getD 2 0) (idx.getD 0 0)]

/-- Index-only projection of `create_regions`: the edge triples of all
regions. -/
def createRegionsE (size0 subdivisions : ℕ) : List (List ℕ) :=
  let st := subdivideIterE subdivisions (size0, icosIndices)
  (List.range (st.2.length / 3)).map (fun i => regionEdgesOf ((st.2.drop (3 * i)).take 3))

theorem createRegions_edges_proj (mid : V → V → V) (nrm : V → V) (icos : Store V)
    (n : ℕ) :
    (createRegions mid nrm icos n).map (·.edges) = createRegionsE icos.size n := by
  unfold createRegions createRegionsE
  rw [List.map_map]
  rw [(subdivideIter_proj mid n (icos.map nrm, icosIndices)).2]
  rfl

/-- The edge triples of the 20 base icosahedron regions. -/
def icosEdgeLists : List (List ℕ) :=
  [[11, 327691, 5], [5, 65541, 1], [1, 65543, 7], [7, 458762, 10],
   [10, 655371, 11], [65541, 327689, 65545], [327691, 262155, 262149],
   [655371, 131082, 131083], [458762, 393223, 393226], [65543, 65544, 458760],
   [196617, 262153, 196612], [196612, 131076, 131075], [131075, 131078, 196614],
   [196614, 393224, 196616], [196616, 524297, 196617], [262153, 327689, 262149],
   [131076, 262155, 131083], [131078, 131082, 393226], [393224, 393223, 458760],
   [524297, 65544, 65545]]

theorem createRegionsE_zero : createRegionsE 12 0 = icosEdgeLists := by rfl

theorem createRegions_zero_edges (mid : V → V → V) (nrm : V → V) (d : ℕ → V) :
    (createRegions mid nrm ⟨12, d⟩ 0).map (·.edges) = icosEdgeLists := by
  rw [createRegions_edges_proj]
  exact createRegionsE_zero

theorem createRegions_zero_length (mid : V → V → V) (nrm : V → V) (d : ℕ → V) :
    (createRegions mid nrm ⟨12, d⟩ 0).length = 20 := by
  have h := congrArg List.length (createRegions_zero_edges mid nrm d)
  rw [List.length_map] at h
  simpa using h

/-- C7: on the base icosahedron (`create_regions(0)`), every one of the 20
regions borders exactly 3 others, where `borders` holds iff the two regions'
3-element edge arrays share at least one key. -/
theorem base_icosahedron_borders_count (V : Type) (mid : V → V → V) (nrm : V → V)
    (d : ℕ → V) (i : ℕ) (hi : i < (createRegions mid nrm ⟨12, d⟩ 0).length) :
    bordersCount (createRegions mid nrm ⟨12, d⟩ 0) i = 3 := by
  have hb : ∀ j, bordersIdx (createRegions mid nrm ⟨12, d⟩ 0) i j
      = bordersIdxE icosEdgeLists i j := by
    intro j
    rw [bordersIdx_eq_E, createRegions_zero_edges]
  unfold bordersCount
  rw [createRegions_zero_length]
  have hgoal : ((List.range 20).filter
      (fun j => decide (j ≠ i) && bordersIdxE icosEdgeLists i j)).length = 3 := by
    rw [createRegions_zero_length] at hi
    interval_cases i <;> decide
  rw [← hgoal]
  congr 1
  apply List.filter_congr
  intro j _
  rw [hb j]

/-- Witness for the adjacency-count theorem at region 0 with a trivial
vertex interpretation. -/
theorem base_icosahedron_borders_count_witness :
    bordersCount (createRegions (fun _ _ => ()) id ⟨12, fun _ => ()⟩ 0) 0 = 3 :=
  base_icosahedron_borders_count Unit (fun _ _ => ()) id (fun _ => ()) 0
    (by rw [createRegions_zero_length]; omega)

/-! ### Fixed-point packing roundtrip (C5) -/

theorem encodeAxis_recombined (v : ℚ) :
    (⌊v⌋ * 16384 + ⌊(v - (⌊v⌋ : ℚ)) * 16384⌋ : ℤ) = ⌊v * 16384⌋ := by
  have h : v * 16384 = (v - (⌊v⌋ : ℚ)) * 16384 + ((⌊v⌋ * 16384 : ℤ) : ℚ) := by
    push_cast
    ring
  rw [h, Int.floor_add_int]
  ring

theorem signExtend_mod (w : ℕ) (hw : 1 ≤ w) (x : ℤ)
    (h1 : -(2 ^ (w - 1)) ≤ x) (h2 : x < 2 ^ (w - 1)) :
    signExtend w ((x % 2 ^ w).toNat) = x := by
  have h2w : (2 : ℤ) ^ w = 2 * 2 ^ (w - 1) := by
    conv_lhs => rw [show w = (w - 1) + 1 by omega]
    rw [pow_succ]
    ring
  have hcast : ((2 ^ (w - 1) : ℕ) : ℤ) = 2 ^ (w - 1) := by push_cast; rfl
  by_cases hx : 0 ≤ x
  · have hlt : x < 2 ^ w := by omega
    have hmod : x % 2 ^ w = x := Int.emod_eq_of_lt hx hlt
    have htn : ((x.toNat : ℤ)) = x := Int.toNat_of_nonneg hx
    rw [signExtend, hmod, if_pos]
    · exact htn
    · have : (x.toNat : ℤ) < ((2 ^ (w - 1) : ℕ) : ℤ) := by rw [htn, hcast]; exact h2
      exact_mod_cast this
  · have hx0 : x < 0 := by omega
    have hmod : x % 2 ^ w = x + 2 ^ w := by
      have h3 : (x + 2 ^ w * 1) % 2 ^ w = x % 2 ^ w :=
        Int.add_mul_emod_self_left (a := x) (b := 2 ^ w) (c := 1)
      have h4 : (x + 2 ^ w) % 2 ^ w = x + 2 ^ w :=
        Int.emod_eq_of_lt (by omega) (by omega)
      rw [Int.mul_one] at h3
      rw [← h3, h4]
    have hnn : 0 ≤ x + 2 ^ w := by omega
    have htn : ((x + 2 ^ w).toNat : ℤ) = x + 2 ^ w := Int.toNat_of_nonneg hnn
    rw [signExtend, hmod, if_neg]
    · rw [htn]
      ring
    · intro hcontra
      have : ((x + 2 ^ w).toNat : ℤ) < ((2 ^ (w - 1) : ℕ) : ℤ) := by exact_mod_cast hcontra
      rw [htn, hcast] at this
      omega

theorem encodeAxis_eq (w : ℕ) (v : ℚ) :
    encodeAxis w v = ((⌊v * 16384⌋ % 2 ^ w).toNat) := by
  show (((⌊v⌋ * 16384 + ⌊(v - (⌊v⌋ : ℚ)) * 16384⌋ : ℤ)) % 2 ^ w).toNat = _
  rw [encodeAxis_recombined]

theorem encodeAxis_lt (w : ℕ) (v : ℚ) : encodeAxis w v < 2 ^ w := by
  rw [encodeAxis_eq]
  have h1 : (0 : ℤ) < 2 ^ w := by positivity
  have h2 := Int.emod_lt_of_pos (⌊v * 16384⌋) h1
  have h3 := Int.emod_nonneg (⌊v * 16384⌋) (by omega : (2 ^ w : ℤ) ≠ 0)
  have : ((2 ^ w : ℕ) : ℤ) = 2 ^ w := by push_cast; rfl
  omega

theorem packVec3_eq_arith (x y z : ℚ) :
    packVec3 x y z
      = encodeAxis 43 x * 2 ^ 85 + encodeAxis 43 y * 2 ^ 42 + encodeAxis 42 z := by
  have hx := encodeAxis_lt 43 x
  have hy := encodeAxis_lt 43 y
  have hz := encodeAxis_lt 42 z
  have h1 : (2 : ℕ) ^ 85 * encodeAxis 43 x + 2 ^ 42 * encodeAxis 43 y
      = 2 ^ 85 * encodeAxis 43 x ||| 2 ^ 42 * encodeAxis 43 y :=
    Nat.mul_add_lt_is_or (by nlinarith : 2 ^ 42 * encodeAxis 43 y < 2 ^ 85) _
  have h2 : (2 : ℕ) ^ 42 * (2 ^ 43 * encodeAxis 43 x + encodeAxis 43 y)
        + encodeAxis 42 z
      = 2 ^ 42 * (2 ^ 43 * encodeAxis 43 x + encodeAxis 43 y) ||| encodeAxis 42 z :=
    Nat.mul_add_lt_is_or hz _
  unfold packVec3
  rw [Nat.shiftLeft_eq, Nat.shiftLeft_eq]
  rw [Nat.mul_comm (encodeAxis 43 x) (2 ^ (43 + 42)),
    Nat.mul_comm (encodeAxis 43 y) (2 ^ 42)]
  have h85 : (2 : ℕ) ^ (43 + 42) = 2 ^ 85 := by norm_num
  rw [h85, ← h1]
  have hform : (2 : ℕ) ^ 85 * encodeAxis 43 x + 2 ^ 42 * encodeAxis 43 y
      = 2 ^ 42 * (2 ^ 43 * encodeAxis 43 x + encodeAxis 43 y) := by ring
  rw [hform, ← h2]

theorem packVec3_extract (x y z : ℚ) :
    ((packVec3 x y z >>> (43 + 42)) &&& (2 ^ 43 - 1) = encodeAxis 43 x)
    ∧ ((packVec3 x y z >>> 42) &&& (2 ^ 43 - 1) = encodeAxis 43 y)
    ∧ (packVec3 x y z &&& (2 ^ 42 - 1) = encodeAxis 42 z) := by
  have hx := encodeAxis_lt 43 x
  have hy := encodeAxis_lt 43 y
  have hz := encodeAxis_lt 42 z
  rw [packVec3_eq_arith]
  rw [Nat.shiftRight_eq_div_pow, Nat.shiftRight_eq_div_pow]
  rw [Nat.and_pow_two_sub_one_eq_mod, Nat.and_pow_two_sub_one_eq_mod,
    Nat.and_pow_two_sub_one_eq_mod]
  refine ⟨?_, ?_, ?_⟩ <;> omega

theorem decodeVec3_fields (x y z : ℚ) :
    ((decodeVec3 (packVec3 x y z)).1
        = (signExtend 43 (encodeAxis 43 x) : ℚ) / 16384)
    ∧ ((decodeVec3 (packVec3 x y z)).2.1
        = (signExtend 43 (encodeAxis 43 y) : ℚ) / 16384)
    ∧ ((decodeVec3 (packVec3 x y z)).2.2
        = (signExtend 42 (encodeAxis 42 z) : ℚ) / 16384) := by
  obtain ⟨h1, h2, h3⟩ := packVec3_extract x y z
  refine ⟨?_, ?_, ?_⟩
  · show (signExtend 43 ((packVec3 x y z >>> (43 + 42)) &&& (2 ^ 43 - 1)) : ℚ)
        / 16384 = _
    rw [h1]
  · show (signExtend 43 ((packVec3 x y z >>> 42) &&& (2 ^ 43 - 1)) : ℚ)
        / 16384 = _
    rw [h2]
  · show (signExtend 42 (packVec3 x y z &&& (2 ^ 42 - 1)) : ℚ) / 16384 = _
    rw [h3]

theorem axis_roundtrip (w : ℕ) (hw : 1 ≤ w) (v : ℚ)
    (h1 : -(2 ^ (w - 1) : ℚ) ≤ v * 16384) (h2 : v * 16384 < 2 ^ (w - 1)) :
    |((signExtend w (encodeAxis w v) : ℚ) / 16384) - v| < 1 / 16384 := by
  have hf1 : -(2 ^ (w - 1) : ℤ) ≤ ⌊v * 16384⌋ := by
    rw [Int.le_floor]
    push_cast
    exact h1
  have hf2 : ⌊v * 16384⌋ < 2 ^ (w - 1) := by
    rw [Int.floor_lt]
    push_cast
    calc (v * 16384 : ℚ) < 2 ^ (w - 1) := h2
      _ ≤ 2 ^ (w - 1) := le_refl _
  rw [encodeAxis_eq, signExtend_mod w hw _ hf1 hf2]
  have hle : ((⌊v * 16384⌋ : ℚ)) ≤ v * 16384 := Int.floor_le _
  have hgt : v * 16384 < (⌊v * 16384⌋ : ℚ) + 1 := Int.lt_floor_add_one _
  rw [abs_sub_lt_iff]
  constructor <;> [skip; skip] <;> nlinarith [hle, hgt]

/-- C5 counterexample: at the inclusive boundary `x = 2 ^ 28` the 43-bit
field wraps: the scaled value `2 ^ 42` truncates two's-complement style and
sign-extends back to `-(2 ^ 42)`, so the decoded `x` is `-(2 ^ 28)` — an
error of `2 ^ 29`, not within `1 / 16384`. -/
theorem packedVec3_roundtrip_cex :
    (decodeVec3 (packVec3 (2 ^ 28) 0 0)).1 = -(2 ^ 28)
    ∧ ¬(|(decodeVec3 (packVec3 (2 ^ 28) 0 0)).1 - 2 ^ 28| < 1 / 16384) := by
  have he : encodeAxis 43 (2 ^ 28 : ℚ) = 2 ^ 42 := by
    rw [encodeAxis_eq]
    norm_num
    decide
  have h1 : (decodeVec3 (packVec3 (2 ^ 28) 0 0)).1
      = (signExtend 43 (encodeAxis 43 (2 ^ 28 : ℚ)) : ℚ) / 16384 :=
    (decodeVec3_fields (2 ^ 28) 0 0).1
  have h2 : (decodeVec3 (packVec3 (2 ^ 28) 0 0)).1 = -(2 ^ 28) := by
    rw [h1, he]
    norm_num [signExtend]
  refine ⟨h2, ?_⟩
  rw [h2]
  rw [abs_sub_lt_iff]
  intro hcontra
  have := hcontra.2
  norm_num at this

/-- C5 amended: for every rational coordinate triple with `x` and `y` in
the half-open range `[-2 ^ 28, 2 ^ 28)` and `z` in `[-2 ^ 27, 2 ^ 27)`
(world units; at the inclusive upper bounds the field wraps), decoding the
128-bit packed word — extracting the 43/43/42-bit fields packed MSB-first as
`x : y : z`, sign-extending each and dividing by 16384 — reproduces every
coordinate within `1 / 16384`. -/
theorem packedVec3_roundtrip (x y z : ℚ)
    (hx1 : -(2 ^ 28) ≤ x) (hx2 : x < 2 ^ 28)
    (hy1 : -(2 ^ 28) ≤ y) (hy2 : y < 2 ^ 28)
    (hz1 : -(2 ^ 27) ≤ z) (hz2 : z < 2 ^ 27) :
    |(decodeVec3 (packVec3 x y z)).1 - x| < 1 / 16384
    ∧ |(decodeVec3 (packVec3 x y z)).2.1 - y| < 1 / 16384
    ∧ |(decodeVec3 (packVec3 x y z)).2.2 - z| < 1 / 16384 := by
  obtain ⟨hdx, hdy, hdz⟩ := decodeVec3_fields x y z
  refine ⟨?_, ?_, ?_⟩
  · rw [hdx]
    refine axis_roundtrip 43 (by omega) x ?_ ?_ <;> norm_num <;> nlinarith
  · rw [hdy]
    refine axis_roundtrip 43 (by omega) y ?_ ?_ <;> norm_num <;> nlinarith
  · rw [hdz]
    refine axis_roundtrip 42 (by omega) z ?_ ?_ <;> norm_num <;> nlinarith

/-- Witness for the packing roundtrip at a concrete interior point. -/
theorem packedVec3_roundtrip_witness :
    |(decodeVec3 (packVec3 5 (-(7 / 2)) (1 / 4))).1 - 5| < 1 / 16384
    ∧ |(decodeVec3 (packVec3 5 (-(7 / 2)) (1 / 4))).2.1 - (-(7 / 2))| < 1 / 16384
    ∧ |(decodeVec3 (packVec3 5 (-(7 / 2)) (1 / 4))).2.2 - 1 / 4| < 1 / 16384 :=
  packedVec3_roundtrip 5 (-(7 / 2)) (1 / 4) (by norm_num) (by norm_num)
    (by norm_num) (by norm_num) (by norm_num) (by norm_num)

/-! ### Termination of clustering on the base icosahedron (C3)

With one plate on the 20-triangle base mesh, growth always makes progress:
the mesh is connected and each edge lies in exactly two triangles, so some
queued region always touches the plate's parity boundary.  A rotation
measure then bounds the number of loop iterations. -/

/-- The edge triple of base region `i` (empty out of range). -/
def eAtIcos (i : ℕ) : List ℕ := (icosEdgeLists.get? i).getD []

theorem edgesAt_icos (mid : V → V → V) (nrm : V → V) (d : ℕ → V) :
    edgesAt (createRegions mid nrm ⟨12, d⟩ 0) = eAtIcos := by
  funext i
  unfold edgesAt eAtIcos
  rw [← createRegions_zero_edges mid nrm d, List.get?_map]

theorem eAtIcos_out_of_range {b : ℕ} (hb : 20 ≤ b) : eAtIcos b = [] := by
  unfold eAtIcos
  rw [List.get?_eq_none.mpr (by simpa [icosEdgeLists] using hb)]
  rfl

theorem eAtIcos_nodup : ∀ i, (eAtIcos i).Nodup := by
  intro i
  by_cases hi : i < 20
  · have h := (by decide : ∀ i ∈ List.range 20, (eAtIcos i).Nodup)
    exact h i (List.mem_range.mpr hi)
  · rw [eAtIcos_out_of_range (by omega)]
    exact List.nodup_nil

/-- Concrete closed-mesh fact: every edge key of a base region occurs in
exactly two of the 20 base regions. -/
theorem eAtIcos_two_regions :
    ∀ i ∈ List.range 20, ∀ e ∈ eAtIcos i,
      ((List.range 20).filter (fun j => decide (e ∈ eAtIcos j))).length = 2 := by
  decide

/-- Region adjacency (sharing an edge key) on the base mesh. -/
def adjIcos (i j : ℕ) : Prop := ∃ e, e ∈ eAtIcos i ∧ e ∈ eAtIcos j

theorem edgesIntersect_iff (a b : List ℕ) :
    edgesIntersect a b = true ↔ ∃ e, e ∈ a ∧ e ∈ b := by
  simp [edgesIntersect, List.any_eq_true, List.elem_iff]

/-- Iterated neighbourhood of region 0. -/
def reachIcos : ℕ → List ℕ
  | 0 => [0]
  | n + 1 => (List.range 20).filter
      (fun j => (reachIcos n).contains j
        || (reachIcos n).any (fun i => edgesIntersect (eAtIcos i) (eAtIcos j)))

theorem reachIcos_spec : ∀ n, ∀ j ∈ reachIcos n, Relation.ReflTransGen adjIcos 0 j := by
  intro n
  induction n with
  | zero =>
    intro j hj
    have : j = 0 := by simpa [reachIcos] using hj
    subst this
    exact Relation.ReflTransGen.refl
  | succ n ih =>
    intro j hj
    rw [reachIcos, List.mem_filter] at hj
    rcases Bool.or_eq_true_iff.mp hj.2 with hc | ha
    · exact ih j (by simpa [List.elem_iff] using hc)
    · rcases List.any_eq_true.mp ha with ⟨i, hiR, hint⟩
      exact (ih i hiR).tail ((edgesIntersect_iff _ _).mp hint)

set_option maxRecDepth 40000 in
theorem reachIcos_full : ∀ j ∈ List.range 20, j ∈ reachIcos 19 := by decide

theorem adjIcos_symm : Symmetric adjIcos := by
  rintro i j ⟨e, h1, h2⟩
  exact ⟨e, h2, h1⟩

theorem connIcos {i j : ℕ} (hi : i < 20) (hj : j < 20) :
    Relation.ReflTransGen adjIcos i j := by
  have h0 : ∀ k, k < 20 → Relation.ReflTransGen adjIcos 0 k := fun k hk =>
    reachIcos_spec 19 k (reachIcos_full k (List.mem_range.mpr hk))
  have hsym := Relation.ReflTransGen.symmetric adjIcos_symm
  exact (hsym (h0 i hi)).trans (h0 j hj)

theorem crossing_lemma {r : ℕ → ℕ → Prop} {S : ℕ → Prop} {x y : ℕ}
    (h : Relation.ReflTransGen r x y) (hx : S x) (hy : ¬S y) :
    ∃ a b, S a ∧ ¬S b ∧ r a b := by
  revert hy
  induction h with
  | refl => intro hy; exact absurd hx hy
  | @tail b c _ hbc ih =>
    intro hy
    by_cases hb : S b
    · exact ⟨b, c, hb, hy, hbc⟩
    · exact ih hb

theorem count_flatMap_eAtIcos (e : ℕ) :
    ∀ C : List ℕ,
      (C.flatMap eAtIcos).count e
        = (C.filter (fun i => decide (e ∈ eAtIcos i))).length := by
  intro C
  induction C with
  | nil => rfl
  | cons i t ih =>
    rw [List.flatMap_cons, List.count_append, List.filter_cons, ih]
    have hcnt : (eAtIcos i).count e = if e ∈ eAtIcos i then 1 else 0 := by
      by_cases hmem : e ∈ eAtIcos i
      · rw [if_pos hmem]
        have h1 := List.nodup_iff_count_le_one.mp (eAtIcos_nodup i) e
        have h2 : 0 < (eAtIcos i).count e := List.count_pos_iff.mpr hmem
        omega
      · rw [if_neg hmem, List.count_eq_zero_of_not_mem hmem]
    rw [hcnt]
    by_cases hmem : e ∈ eAtIcos i <;> simp [hmem] <;> omega

/-- Progress: with one plate holding regions `C` and queue `Q` partitioning
the 20 base regions, some queued region touches the plate's parity
boundary. -/
theorem progress_lemma (C Q : List ℕ) (hC : C ≠ []) (hQ : Q ≠ [])
    (hperm : (C ++ Q).Perm (List.range 20)) :
    ∃ b ∈ Q, multiContains (oddKeys (C.flatMap eAtIcos)) (eAtIcos b) = true := by
  have hnd : (C ++ Q).Nodup := hperm.nodup_iff.mpr (List.nodup_range 20)
  have hmem : ∀ x : ℕ, (x ∈ C ∨ x ∈ Q) ↔ x < 20 := by
    intro x
    rw [← List.mem_append, hperm.mem_iff, List.mem_range]
  have hdisj : ∀ x ∈ Q, x ∉ C := by
    intro x hxQ hxC
    rcases List.nodup_append.mp hnd with ⟨_, _, hd⟩
    exact hd hxC hxQ
  obtain ⟨r, hr⟩ := List.exists_mem_of_ne_nil C hC
  obtain ⟨q0, hq0⟩ := List.exists_mem_of_ne_nil Q hQ
  have hr20 : r < 20 := (hmem r).mp (Or.inl hr)
  have hq020 : q0 < 20 := (hmem q0).mp (Or.inr hq0)
  obtain ⟨a, b, haC, hbC, e, heA, heB⟩ :=
    crossing_lemma (S := fun i => i ∈ C) (connIcos hr20 hq020) hr (hdisj q0 hq0)
  have hb20 : b < 20 := by
    by_contra hb
    rw [eAtIcos_out_of_range (by omega)] at heB
    exact absurd heB (List.not_mem_nil e)
  have ha20 : a < 20 := (hmem a).mp (Or.inl haC)
  have hbQ : b ∈ Q := ((hmem b).mpr hb20).resolve_left hbC
  have htwo := eAtIcos_two_regions a (List.mem_range.mpr ha20) e heA
  have hfla : ((C ++ Q).filter (fun i => decide (e ∈ eAtIcos i))).length
      = ((List.range 20).filter (fun i => decide (e ∈ eAtIcos i))).length :=
    (hperm.filter _).length_eq
  rw [List.filter_append, List.length_append, htwo] at hfla
  have haF : a ∈ C.filter (fun i => decide (e ∈ eAtIcos i)) :=
    List.mem_filter.mpr ⟨haC, by simpa using heA⟩
  have hbF : b ∈ Q.filter (fun i => decide (e ∈ eAtIcos i)) :=
    List.mem_filter.mpr ⟨hbQ, by simpa using heB⟩
  have hCge : 1 ≤ (C.filter (fun i => decide (e ∈ eAtIcos i))).length :=
    List.length_pos.mpr (List.ne_nil_of_mem haF)
  have hQge : 1 ≤ (Q.filter (fun i => decide (e ∈ eAtIcos i))).length :=
    List.length_pos.mpr (List.ne_nil_of_mem hbF)
  have hCone : (C.filter (fun i => decide (e ∈ eAtIcos i))).length = 1 := by omega
  have hodd : e ∈ oddKeys (C.flatMap eAtIcos) := by
    rw [mem_oddKeys, count_flatMap_eAtIcos, hCone]
  refine ⟨b, hbQ, ?_⟩
  rw [multiContains, List.any_eq_true]
  exact ⟨e, heB, by simpa using hodd⟩

theorem oddKeys_perm {l l' : List ℕ} (h : l.Perm l') : oddKeys l = oddKeys l' := by
  ext e
  rw [mem_oddKeys, mem_oddKeys, h.count_eq]

theorem oddKeys_eq_empty {l : List ℕ} (h : ∀ e ∈ l, l.count e % 2 = 0) :
    oddKeys l = ∅ := by
  ext e
  simp only [mem_oddKeys, Finset.not_mem_empty, iff_false]
  intro hcount
  have hm : e ∈ l := by
    by_contra hnm
    rw [List.count_eq_zero_of_not_mem hnm] at hcount
    omega
  have := h e hm
  omega

set_option maxRecDepth 40000 in
theorem oddKeys_range20 : oddKeys ((List.range 20).flatMap eAtIcos) = ∅ :=
  oddKeys_eq_empty (by decide)

theorem findIdx_append_of_exists {α : Type} {p : α → Bool} :
    ∀ {l : List α}, (∃ x ∈ l, p x = true) → ∀ l' : List α,
      (l ++ l').findIdx p = l.findIdx p := by
  intro l
  induction l with
  | nil =>
    rintro ⟨x, hx, _⟩
    exact absurd hx (List.not_mem_nil x)
  | cons a t ih =>
    rintro ⟨x, hx, hpx⟩ l'
    rw [List.cons_append, List.findIdx_cons, List.findIdx_cons]
    by_cases hpa : p a
    · simp [hpa]
    · simp only [hpa, cond_false]
      congr 1
      refine ih ?_ l'
      rcases List.mem_cons.mp hx with rfl | hx2
      · exact absurd hpx (by simp [hpa])
      · exact ⟨x, hx2, hpx⟩

theorem assignFirst_single (regions : List (Region V)) (ri : ℕ) (p : TectonicPlate) :
    assignFirst regions ri [p]
      = if multiContains p.plate_edges (edgesAt regions ri) then
          some [{ p with
                  contained_regions := p.contained_regions ++ [ri],
                  plate_edges := multiInsertEdge p.plate_edges (edgesAt regions ri) }]
        else none := by
  rw [assignFirst]
  split <;> rfl

/-- The single-plate growth invariant on the base mesh. -/
def InvIcos (plate : TectonicPlate) (queue : List ℕ) : Prop :=
  plate.contained_regions ≠ []
  ∧ (plate.contained_regions ++ queue).Perm (List.range 20)
  ∧ plate.plate_edges = oddKeys (plate.contained_regions.flatMap eAtIcos)

theorem growLoop_term (R : Rng) (regions : List (Region V))
    (hfun : edgesAt regions = eAtIcos) :
    ∀ (fuel : ℕ) (s : R.σ) (queue : List ℕ) (plate : TectonicPlate),
      InvIcos plate queue →
      queue.length * 21
          + queue.findIdx (fun q => multiContains plate.plate_edges (eAtIcos q)) < fuel →
      ∃ p', growLoop R regions fuel s queue [plate] = some [p']
        ∧ p'.contained_regions.Perm (List.range 20) ∧ p'.plate_edges = ∅ := by
  intro fuel
  induction fuel with
  | zero =>
    intro s queue plate _ hfuel
    omega
  | succ fuel ih =>
    intro s queue plate hInv hfuel
    obtain ⟨hne, hperm, hpar⟩ := hInv
    cases queue with
    | nil =>
      have hC : plate.contained_regions.Perm (List.range 20) := by
        simpa using hperm
      refine ⟨plate, rfl, hC, ?_⟩
      rw [hpar]
      rw [oddKeys_perm (hC.flatMap_right eAtIcos), oddKeys_range20]
    | cons q rest =>
      have hstep : growLoop R regions (fuel + 1) s (q :: rest) [plate]
          = if multiContains plate.plate_edges (eAtIcos q) then
              growLoop R regions fuel
                (R.shuffle TectonicPlate s
                  [{ plate with
                      contained_regions := plate.contained_regions ++ [q],
                      plate_edges :=
                        multiInsertEdge plate.plate_edges (eAtIcos q) }]).2 rest
                (R.shuffle TectonicPlate s
                  [{ plate with
                      contained_regions := plate.contained_regions ++ [q],
                      plate_edges :=
                        multiInsertEdge plate.plate_edges (eAtIcos q) }]).1
            else growLoop R regions fuel s (rest ++ [q]) [plate] := by
        rw [growLoop, assignFirst_single, hfun]
        by_cases habs : multiContains plate.plate_edges (eAtIcos q) <;> simp [habs]
      rw [hstep]
      have hlen20 : plate.contained_regions.length + (rest.length + 1) = 20 := by
        have := hperm.length_eq
        simpa [List.length_range] using this
      have hCpos : 1 ≤ plate.contained_regions.length :=
        List.length_pos.mpr hne
      by_cases habs : multiContains plate.plate_edges (eAtIcos q) = true
      · rw [if_pos habs]
        have hsh1 : (R.shuffle TectonicPlate s
            [{ plate with
                contained_regions := plate.contained_regions ++ [q],
                plate_edges := multiInsertEdge plate.plate_edges (eAtIcos q) }]).1
            = [{ plate with
                contained_regions := plate.contained_regions ++ [q],
                plate_edges := multiInsertEdge plate.plate_edges (eAtIcos q) }] :=
          List.perm_singleton.mp (R.shuffle_perm TectonicPlate s _)
        rw [hsh1]
        refine ih _ rest _ ⟨by simp, ?_, ?_⟩ ?_
        · show ((plate.contained_regions ++ [q]) ++ rest).Perm (List.range 20)
          rw [List.append_assoc]
          exact hperm
        · show multiInsertEdge plate.plate_edges (eAtIcos q)
            = oddKeys ((plate.contained_regions ++ [q]).flatMap eAtIcos)
          rw [multiInsertEdge_symmDiff, hpar, ← oddKeys_append]
          congr 1
          rw [List.flatMap_append]
          simp
        · show rest.length * 21
              + rest.findIdx
                (fun r =>
                  multiContains (multiInsertEdge plate.plate_edges (eAtIcos q)) (eAtIcos r))
              < fuel
          have hle : rest.findIdx
              (fun r =>
                multiContains (multiInsertEdge plate.plate_edges (eAtIcos q)) (eAtIcos r))
              ≤ rest.length :=
            List.findIdx_le_length _
          simp only [List.length_cons] at hfuel
          omega
      · rw [if_neg habs]
        obtain ⟨b, hbQ, hpb⟩ := progress_lemma plate.contained_regions (q :: rest) hne
          (by simp) hperm
        rw [← hpar] at hpb
        have hbrest : b ∈ rest := by
          rcases List.mem_cons.mp hbQ with rfl | h
          · exact absurd hpb (by simpa using habs)
          · exact h
        have hfc : (q :: rest).findIdx
            (fun r => multiContains plate.plate_edges (eAtIcos r))
            = rest.findIdx (fun r => multiContains plate.plate_edges (eAtIcos r)) + 1 := by
          rw [List.findIdx_cons]
          have : multiContains plate.plate_edges (eAtIcos q) = false := by
            simpa using habs
          simp [this]
        have hfa : (rest ++ [q]).findIdx
            (fun r => multiContains plate.plate_edges (eAtIcos r))
            = rest.findIdx (fun r => multiContains plate.plate_edges (eAtIcos r)) :=
          findIdx_append_of_exists ⟨b, hbrest, hpb⟩ [q]
        refine ih _ (rest ++ [q]) _ ⟨hne, ?_, hpar⟩ ?_
        · refine List.Perm.trans ?_ hperm
          refine List.Perm.append_left plate.contained_regions ?_
          exact List.perm_append_singleton q rest
        · rw [hfa]
          rw [hfc] at hfuel
          simp only [List.length_cons] at hfuel
          simp only [List.length_append, List.length_singleton]
          omega

/-- C3: on the 20 base regions (`create_regions(0)`) with a single plate,
`cluster_regions` terminates for every RNG behaviour and seed (fuel 500
always suffices), returning exactly one plate that contains all 20 region
indices and whose `plate_edges` set is empty. -/
theorem cluster_base_single (V : Type) (mid : V → V → V) (nrm : V → V) (d : ℕ → V)
    (R : Rng) (st : R.σ) :
    ∃ out, clusterRegions R st (createRegions mid nrm ⟨12, d⟩ 0) 1 500 = some out
      ∧ out.length = 1
      ∧ ∀ p ∈ out, p.contained_regions.Perm (List.range 20) ∧ p.plate_edges = ∅ := by
  have hfun : edgesAt (createRegions mid nrm ⟨12, d⟩ 0) = eAtIcos := edgesAt_icos mid nrm d
  have hlen : (createRegions mid nrm ⟨12, d⟩ 0).length = 20 :=
    createRegions_zero_length mid nrm d
  have hf := assignClassification_fields R st ({} : TectonicPlate)
  have hql : (R.shuffle ℕ (assignClassification R st {}).2
      (List.range (createRegions mid nrm ⟨12, d⟩ 0).length)).1.reverse.length = 20 := by
    rw [List.length_reverse, (R.shuffle_perm ℕ _ _).length_eq, List.length_range, hlen]
  have hqp : (R.shuffle ℕ (assignClassification R st {}).2
      (List.range (createRegions mid nrm ⟨12, d⟩ 0).length)).1.reverse.Perm
      (List.range 20) := by
    refine List.Perm.trans (List.reverse_perm _) ?_
    rw [← hlen]
    exact R.shuffle_perm ℕ _ _
  cases hqe : (R.shuffle ℕ (assignClassification R st {}).2
      (List.range (createRegions mid nrm ⟨12, d⟩ 0).length)).1.reverse with
  | nil =>
    rw [hqe] at hql
    simp at hql
  | cons r0 rest0 =>
    have hseed : clusterRegions R st (createRegions mid nrm ⟨12, d⟩ 0) 1 500
        = growLoop R (createRegions mid nrm ⟨12, d⟩ 0) 500
            (R.shuffle ℕ (assignClassification R st {}).2
              (List.range (createRegions mid nrm ⟨12, d⟩ 0).length)).2
            rest0
            [{ (assignClassification R st {}).1 with
                contained_regions := (assignClassification R st {}).1.contained_regions
                  ++ [r0],
                plate_edges := multiInsertEdge
                  (assignClassification R st {}).1.plate_edges
                  (edgesAt (createRegions mid nrm ⟨12, d⟩ 0) r0) }] := by
      show (match seedPhase R st (createRegions mid nrm ⟨12, d⟩ 0) 1 with
        | (none, _) => none
        | (some (plates, queue), s2) =>
          growLoop R (createRegions mid nrm ⟨12, d⟩ 0) 500 s2 queue plates) = _
      have hsp : seedPhase R st (createRegions mid nrm ⟨12, d⟩ 0) 1
          = (seedLoop (createRegions mid nrm ⟨12, d⟩ 0)
              [(assignClassification R st {}).1]
              (R.shuffle ℕ (assignClassification R st {}).2
                (List.range (createRegions mid nrm ⟨12, d⟩ 0).length)).1.reverse,
             (R.shuffle ℕ (assignClassification R st {}).2
               (List.range (createRegions mid nrm ⟨12, d⟩ 0).length)).2) := rfl
      rw [hsp, hqe]
      rfl
    rw [hseed, hfun]
    have hcont : (assignClassification R st {}).1.contained_regions = [] := hf.1
    have hedges : (assignClassification R st {}).1.plate_edges = ∅ := hf.2
    have hInv1 : (assignClassification R st {}).1.contained_regions ++ [r0] ≠ [] := by
      simp
    have hInv2 : (((assignClassification R st {}).1.contained_regions ++ [r0]) ++ rest0).Perm
        (List.range 20) := by
      rw [hcont]
      rw [hqe] at hqp
      simpa using hqp
    have hInv3 : multiInsertEdge (assignClassification R st {}).1.plate_edges (eAtIcos r0)
        = oddKeys (((assignClassification R st {}).1.contained_regions ++ [r0]).flatMap
            eAtIcos) := by
      rw [hcont, hedges]
      rw [multiInsertEdge_symmDiff, ← Finset.bot_eq_empty, bot_symmDiff]
      congr 1
      simp
    have hMeas : rest0.length * 21
        + rest0.findIdx
          (fun q => multiContains
            (multiInsertEdge (assignClassification R st {}).1.plate_edges (eAtIcos r0))
            (eAtIcos q))
        < 500 := by
      have h19 : rest0.length = 19 := by
        rw [hqe] at hql
        simpa using hql
      have hle : rest0.findIdx
          (fun q => multiContains
            (multiInsertEdge (assignClassification R st {}).1.plate_edges (eAtIcos r0))
            (eAtIcos q))
          ≤ rest0.length :=
        List.findIdx_le_length _
      omega
    obtain ⟨p', hp', hpp, hpe⟩ :=
      growLoop_term R (createRegions mid nrm ⟨12, d⟩ 0) hfun 500
        (R.shuffle ℕ (assignClassification R st {}).2
          (List.range (createRegions mid nrm ⟨12, d⟩ 0).length)).2
        rest0
        { (assignClassification R st {}).1 with
          contained_regions := (assignClassification R st {}).1.contained_regions ++ [r0],
          plate_edges := multiInsertEdge (assignClassification R st {}).1.plate_edges
            (eAtIcos r0) }
        ⟨hInv1, hInv2, hInv3⟩ hMeas
    refine ⟨[p'], hp', rfl, ?_⟩
    intro p hp
    rw [List.mem_singleton] at hp
    subst hp
    exact ⟨hpp, hpe⟩

/-! ### C4: vertex and triangle counts of the subdivided icosphere

The following development proves, over the index-only projection
(`subdivideLoopE` and friends), that one level of `subdivide` turns a
well-formed closed mesh with `s` vertices, `T` triangles and `E` distinct
canonical edge keys into one with `s + E` vertices, `4·T` triangles and
`2·E + 3·T` edge keys — the midpoint cache creating each shared edge
midpoint exactly once.  Iterating from the icosahedron
(`s, T, E = 12, 20, 30`) yields the `10·4^n + 2` / `20·4^n` counts. -/

/-- The canonical cache key built inside `midpoint`:
`let key = if a < b { (a, b) } else { (b, a) }`. -/
def keyOf (a b : ℕ) : ℕ × ℕ := if a < b then (a, b) else (b, a)

theorem keyOf_minmax (a b : ℕ) : keyOf a b = (min a b, max a b) := by
  unfold keyOf
  split <;> simp only [Prod.mk.injEq] <;> omega

theorem keyOf_comm (a b : ℕ) : keyOf a b = keyOf b a := by
  rw [keyOf_minmax, keyOf_minmax, Nat.min_comm, Nat.max_comm]

/-- Value of a little-endian bit list (left inverse of `natBits`). -/
def bitsVal : List Bool → ℕ
  | [] => 0
  | b :: r => (if b then 1 else 0) + 2 * bitsVal r

theorem natBits_val : ∀ (fuel n : ℕ), n ≤ fuel → bitsVal (natBits fuel n) = n
  | 0, n, h => by
    have hn : n = 0 := by omega
    subst hn
    rfl
  | fuel + 1, n, _h => by
    rw [natBits]
    by_cases h0 : n = 0
    · simp [h0, bitsVal]
    · rw [if_neg h0]
      show (if decide (n % 2 = 1) = true then 1 else 0)
          + 2 * bitsVal (natBits fuel (n / 2)) = n
      rw [natBits_val fuel (n / 2) (by omega)]
      rcases Nat.mod_two_eq_zero_or_one n with h2 | h2 <;> simp [h2] <;> omega

theorem keyBits_inj {k k' : ℕ × ℕ} (h : keyBits k = keyBits k') : k = k' := by
  have h1 := natBits_val (Nat.pair k.1 k.2) (Nat.pair k.1 k.2) le_rfl
  have h2 := natBits_val (Nat.pair k'.1 k'.2) (Nat.pair k'.1 k'.2) le_rfl
  rw [keyBits] at h
  rw [h] at h1
  rw [keyBits] at h1
  rw [h2] at h1
  obtain ⟨hfst, hsnd⟩ := Nat.pair_eq_pair.mp h1
  exact (Prod.ext hfst hsnd).symm

theorem findBits_insertBits_same {β : Type} :
    ∀ (t : Trie β) (bs : List Bool) (v : β), (t.insertBits bs v).findBits bs = some v
  | .leaf, [], _ => rfl
  | .node _ _ _, [], _ => rfl
  | .leaf, bit :: rest, v => by
    rw [Trie.insertBits]
    by_cases hb : bit <;>
      simp only [hb, if_true, if_false, Bool.false_eq_true, Trie.findBits] <;>
      exact findBits_insertBits_same _ rest v
  | .node w l r, bit :: rest, v => by
    rw [Trie.insertBits]
    by_cases hb : bit <;>
      simp only [hb, if_true, if_false, Bool.false_eq_true, Trie.findBits] <;>
      exact findBits_insertBits_same _ rest v

theorem findBits_leaf {β : Type} (bs : List Bool) :
    (Trie.leaf : Trie β).findBits bs = none := by
  cases bs <;> rfl

theorem findBits_insertBits_diff {β : Type} :
    ∀ (t : Trie β) (bs bs' : List Bool) (v : β), bs ≠ bs' →
      (t.insertBits bs v).findBits bs' = t.findBits bs'
  | _, [], [], _, h => absurd rfl h
  | .leaf, [], b :: _, _, _ => by
    cases b <;> simp [Trie.insertBits, Trie.findBits, findBits_leaf]
  | .node _ _ _, [], b :: _, _, _ => by
    cases b <;> simp [Trie.insertBits, Trie.findBits]
  | .leaf, b :: _, [], _, _ => by
    cases b <;> simp [Trie.insertBits, Trie.findBits, findBits_leaf]
  | .node _ _ _, b :: _, [], _, _ => by
    cases b <;> simp [Trie.insertBits, Trie.findBits]
  | .leaf, bit :: rest, bit' :: rest', v, h => by
    by_cases hbb : bit = bit'
    · subst hbb
      have hne : rest ≠ rest' := fun he => h (by rw [he])
      have ih := findBits_insertBits_diff (Trie.leaf : Trie β) rest rest' v hne
      cases bit <;> simp [Trie.insertBits, Trie.findBits, findBits_leaf, ih]
    · cases bit <;> cases bit' <;> first
        | exact absurd rfl hbb
        | simp [Trie.insertBits, Trie.findBits, findBits_leaf]
  | .node w l r, bit :: rest, bit' :: rest', v, h => by
    by_cases hbb : bit = bit'
    · subst hbb
      have hne : rest ≠ rest' := fun he => h (by rw [he])
      have ihl := findBits_insertBits_diff l rest rest' v hne
      have ihr := findBits_insertBits_diff r rest rest' v hne
      cases bit <;> simp [Trie.insertBits, Trie.findBits, ihl, ihr]
    · cases bit <;> cases bit' <;> first
        | exact absurd rfl hbb
        | simp [Trie.insertBits, Trie.findBits]

theorem cacheFind_insert_same (c : Cache) (k : ℕ × ℕ) (v : ℕ) :
    cacheFind (cacheInsert c k v) k = some v :=
  findBits_insertBits_same c (keyBits k) v

theorem cacheFind_insert_diff (c : Cache) (k k' : ℕ × ℕ) (v : ℕ) (h : k' ≠ k) :
    cacheFind (cacheInsert c k v) k' = cacheFind c k' :=
  findBits_insertBits_diff c (keyBits k) (keyBits k') v
    (fun hb => h (keyBits_inj hb).symm)

theorem cacheFind_empty (k : ℕ × ℕ) : cacheFind cacheEmpty k = none :=
  findBits_leaf (keyBits k)

/-- The index list cut into consecutive corner triples (`chunks_exact(3)`). -/
def triples : List ℕ → List (ℕ × ℕ × ℕ)
  | a :: b :: c :: rest => (a, b, c) :: triples rest
  | _ => []

/-- The three canonical cache keys of one triangle's edges. -/
def triKeys (t : ℕ × ℕ × ℕ) : List (ℕ × ℕ) :=
  [keyOf t.1 t.2.1, keyOf t.2.1 t.2.2, keyOf t.2.2 t.1]

/-- All cache keys of a flat index list, three per triangle. -/
def keysList (idx : List ℕ) : List (ℕ × ℕ) := (triples idx).flatMap triKeys

/-- Cache lookup with an (unreachable) default. -/
def cacheGetD (c : Cache) (k : ℕ × ℕ) : ℕ := (cacheFind c k).getD 0

/-- The four child triangles one subdivision step generates from a parent,
given the three midpoint indices. -/
def childTris (m1 m2 m3 : ℕ) (t : ℕ × ℕ × ℕ) : List (ℕ × ℕ × ℕ) :=
  [(t.1, m1, m3), (m1, t.2.1, m2), (m3, m2, t.2.2), (m1, m2, m3)]

/-- The flat child index list of a triple list, with all midpoints read off
a (final) cache. -/
def childFlat (c : Cache) : List (ℕ × ℕ × ℕ) → List ℕ
  | [] => []
  | (a, b, cc) :: rest =>
    a :: cacheGetD c (keyOf a b) :: cacheGetD c (keyOf cc a)
      :: cacheGetD c (keyOf a b) :: b :: cacheGetD c (keyOf b cc)
      :: cacheGetD c (keyOf cc a) :: cacheGetD c (keyOf b cc) :: cc
      :: cacheGetD c (keyOf a b) :: cacheGetD c (keyOf b cc)
      :: cacheGetD c (keyOf cc a) :: childFlat c rest

/-- Invariant of the midpoint cache during one `subdivide` pass that started
at vertex count `s0`: its domain is `S`, its values are fresh distinct
indices in `[s0, s)`, and the vertex count `s` accounts for exactly one
`push` per cached key. -/
structure CacheOk (s0 : ℕ) (S : Finset (ℕ × ℕ)) (c : Cache) (s : ℕ) : Prop where
  dom : ∀ k, k ∈ S ↔ (cacheFind c k).isSome
  inj : ∀ k k' m, cacheFind c k = some m → cacheFind c k' = some m → k = k'
  rng : ∀ k m, cacheFind c k = some m → s0 ≤ m ∧ m < s
  size : s = s0 + S.card

theorem midpointStepE_hit {s : ℕ} {c : Cache} {m : ℕ} (a b : ℕ)
    (h : cacheFind c (keyOf a b) = some m) :
    midpointStepE a b s c = (m, s, c) := by
  show (match cacheFind c (keyOf a b) with
    | some m => (m, s, c)
    | none => (s % 65536, s + 1, cacheInsert c (keyOf a b) (s % 65536))) = (m, s, c)
  rw [h]

theorem midpointStepE_miss {s : ℕ} {c : Cache} (a b : ℕ)
    (h : cacheFind c (keyOf a b) = none) :
    midpointStepE a b s c = (s % 65536, s + 1, cacheInsert c (keyOf a b) (s % 65536)) := by
  show (match cacheFind c (keyOf a b) with
    | some m => (m, s, c)
    | none => (s % 65536, s + 1, cacheInsert c (keyOf a b) (s % 65536))) = _
  rw [h]

theorem midpointStepE_ok {s0 s : ℕ} {S : Finset (ℕ × ℕ)} {c : Cache} (a b : ℕ)
    (hC : CacheOk s0 S c s) (hs : keyOf a b ∉ S → s < 65536) :
    (midpointStepE a b s c).2.1 = s + (if keyOf a b ∈ S then 0 else 1)
    ∧ CacheOk s0 (insert (keyOf a b) S) (midpointStepE a b s c).2.2
        (midpointStepE a b s c).2.1
    ∧ cacheFind (midpointStepE a b s c).2.2 (keyOf a b) = some (midpointStepE a b s c).1
    ∧ (∀ k m, cacheFind c k = some m →
        cacheFind (midpointStepE a b s c).2.2 k = some m) := by
  cases hfind : cacheFind c (keyOf a b) with
  | some m =>
    have hmem : keyOf a b ∈ S := (hC.dom _).mpr (by rw [hfind]; rfl)
    rw [midpointStepE_hit a b hfind]
    refine ⟨by simp [hmem], ?_, by simpa using hfind, fun k m h => h⟩
    rw [Finset.insert_eq_self.mpr hmem]
    exact hC
  | none =>
    have hmem : keyOf a b ∉ S := fun hm => by
      have := (hC.dom _).mp hm
      rw [hfind] at this
      exact absurd this (by simp)
    have hslt : s < 65536 := hs hmem
    have hmod : s % 65536 = s := Nat.mod_eq_of_lt hslt
    rw [midpointStepE_miss a b hfind, hmod]
    dsimp only
    refine ⟨by simp [hmem], ?_, ?_, ?_⟩
    · refine ⟨?_, ?_, ?_, ?_⟩
      · intro k
        by_cases hk : k = keyOf a b
        · subst hk
          simp [cacheFind_insert_same]
        · rw [cacheFind_insert_diff _ _ _ _ hk, Finset.mem_insert]
          have := hC.dom k
          tauto
      · intro k k' m hk hk'
        by_cases h1 : k = keyOf a b <;> by_cases h2 : k' = keyOf a b
        · rw [h1, h2]
        · subst h1
          rw [cacheFind_insert_same] at hk
          rw [cacheFind_insert_diff _ _ _ _ h2] at hk'
          have hke := Option.some.inj hk
          exact absurd (hC.rng k' m hk').2 (by omega)
        · subst h2
          rw [cacheFind_insert_same] at hk'
          rw [cacheFind_insert_diff _ _ _ _ h1] at hk
          have hke := Option.some.inj hk'
          exact absurd (hC.rng k m hk).2 (by omega)
        · rw [cacheFind_insert_diff _ _ _ _ h1] at hk
          rw [cacheFind_insert_diff _ _ _ _ h2] at hk'
          exact hC.inj k k' m hk hk'
      · intro k m hk
        by_cases h1 : k = keyOf a b
        · subst h1
          rw [cacheFind_insert_same] at hk
          have hsz := hC.size
          injection hk with hk
          omega
        · rw [cacheFind_insert_diff _ _ _ _ h1] at hk
          have := hC.rng k m hk
          omega
      · rw [Finset.card_insert_of_not_mem hmem, hC.size]
        ring
    · simp [cacheFind_insert_same]
    · intro k m hk
      have h1 : k ≠ keyOf a b := fun he => by
        rw [he, hfind] at hk
        exact absurd hk (by simp)
      rw [cacheFind_insert_diff _ _ _ _ h1]
      exact hk

theorem card_new3 {α : Type} [DecidableEq α] (k1 k2 k3 : α) (K S : Finset α) :
    ((insert k1 (insert k2 (insert k3 K))) \ S).card
      = (if k1 ∈ S then 0 else 1)
        + (if k2 ∈ insert k1 S then 0 else 1)
        + (if k3 ∈ insert k2 (insert k1 S) then 0 else 1)
        + (K \ insert k3 (insert k2 (insert k1 S))).card := by
  have h1 := Finset.card_sdiff_add_card (insert k1 (insert k2 (insert k3 K))) S
  have h2 := Finset.card_sdiff_add_card K (insert k3 (insert k2 (insert k1 S)))
  have h3 : (insert k1 (insert k2 (insert k3 K))) ∪ S
      = K ∪ insert k3 (insert k2 (insert k1 S)) := by
    ext x
    simp only [Finset.mem_union, Finset.mem_insert]
    tauto
  have h5 : ((insert k1 (insert k2 (insert k3 K))) ∪ S).card
      = (K ∪ insert k3 (insert k2 (insert k1 S))).card := by
    rw [h3]
  have h4 : (insert k3 (insert k2 (insert k1 S))).card
      = S.card + (if k1 ∈ S then 0 else 1) + (if k2 ∈ insert k1 S then 0 else 1)
        + (if k3 ∈ insert k2 (insert k1 S) then 0 else 1) := by
    rw [Finset.card_insert_eq_ite, Finset.card_insert_eq_ite, Finset.card_insert_eq_ite]
    split_ifs <;> omega
  omega

theorem subdivideLoopE_sim (s0 : ℕ) :
    ∀ (idx : List ℕ) (s : ℕ) (c : Cache) (acc : List ℕ) (S : Finset (ℕ × ℕ)),
      idx.length % 3 = 0 →
      CacheOk s0 S c s →
      s + ((keysList idx).toFinset \ S).card ≤ 65536 →
      ∃ c' : Cache,
        CacheOk s0 (S ∪ (keysList idx).toFinset) c'
          (s + ((keysList idx).toFinset \ S).card)
        ∧ (∀ k m, cacheFind c k = some m → cacheFind c' k = some m)
        ∧ subdivideLoopE idx s c acc
            = (s + ((keysList idx).toFinset \ S).card,
               acc.reverse ++ childFlat c' (triples idx))
  | [], s, c, acc, S, _, hC, _ => by
    refine ⟨c, ?_, fun k m h => h, ?_⟩
    · simpa [keysList, triples] using hC
    · show (s, acc.reverse) = _
      simp [keysList, triples, childFlat]
  | [x], _, _, _, _, hlen, _, _ => by simp at hlen
  | [x, y], _, _, _, _, hlen, _, _ => by simp at hlen
  | a :: b :: cc :: rest, s, c, acc, S, hlen, hC, hbound => by
    have hlen' : rest.length % 3 = 0 := by
      simp only [List.length_cons] at hlen
      omega
    have hKl : keysList (a :: b :: cc :: rest)
        = keyOf a b :: keyOf b cc :: keyOf cc a :: keysList rest := rfl
    have hKf : (keysList (a :: b :: cc :: rest)).toFinset
        = insert (keyOf a b) (insert (keyOf b cc) (insert (keyOf cc a)
            (keysList rest).toFinset)) := by
      rw [hKl]
      simp [List.toFinset_cons]
    have hcard := card_new3 (keyOf a b) (keyOf b cc) (keyOf cc a)
      (keysList rest).toFinset S
    rw [hKf, hcard] at hbound
    obtain ⟨hsz1, hC1, hfind1, hmono1⟩ := midpointStepE_ok a b hC (fun hm => by
      have e1 : (if keyOf a b ∈ S then (0 : ℕ) else 1) = 1 := if_neg hm
      omega)
    rcases h1 : midpointStepE a b s c with ⟨m1, s1, c1⟩
    rw [h1] at hsz1 hC1 hfind1 hmono1
    dsimp only at hsz1 hC1 hfind1 hmono1
    have d1le : (if keyOf a b ∈ S then (0 : ℕ) else 1) ≤ 1 := by split <;> omega
    obtain ⟨hsz2, hC2, hfind2, hmono2⟩ := midpointStepE_ok b cc hC1 (fun hm => by
      have e2 : (if keyOf b cc ∈ insert (keyOf a b) S then (0 : ℕ) else 1) = 1 := if_neg hm
      omega)
    rcases h2 : midpointStepE b cc s1 c1 with ⟨m2, s2, c2⟩
    rw [h2] at hsz2 hC2 hfind2 hmono2
    dsimp only at hsz2 hC2 hfind2 hmono2
    have d2le : (if keyOf b cc ∈ insert (keyOf a b) S then (0 : ℕ) else 1) ≤ 1 := by
      split <;> omega
    obtain ⟨hsz3, hC3, hfind3, hmono3⟩ := midpointStepE_ok cc a hC2 (fun hm => by
      have e3 : (if keyOf cc a ∈ insert (keyOf b cc) (insert (keyOf a b) S) then (0 : ℕ)
          else 1) = 1 := if_neg hm
      omega)
    rcases h3 : midpointStepE cc a s2 c2 with ⟨m3, s3, c3⟩
    rw [h3] at hsz3 hC3 hfind3 hmono3
    dsimp only at hsz3 hC3 hfind3 hmono3
    have d3le : (if keyOf cc a ∈ insert (keyOf b cc) (insert (keyOf a b) S) then (0 : ℕ)
        else 1) ≤ 1 := by split <;> omega
    obtain ⟨c', hC', hmono', heq⟩ := subdivideLoopE_sim s0 rest s3 c3
      (m3 :: m2 :: m1 :: cc :: m2 :: m3 :: m2 :: b :: m1 :: m3 :: m1 :: a :: acc)
      (insert (keyOf cc a) (insert (keyOf b cc) (insert (keyOf a b) S)))
      hlen' hC3 (by omega)
    have hg1 : cacheFind c' (keyOf a b) = some m1 :=
      hmono' _ _ (hmono3 _ _ (hmono2 _ _ hfind1))
    have hg2 : cacheFind c' (keyOf b cc) = some m2 := hmono' _ _ (hmono3 _ _ hfind2)
    have hg3 : cacheFind c' (keyOf cc a) = some m3 := hmono' _ _ hfind3
    refine ⟨c', ?_, fun k m hk => hmono' _ _ (hmono3 _ _ (hmono2 _ _ (hmono1 _ _ hk))), ?_⟩
    · have hset : S ∪ (keysList (a :: b :: cc :: rest)).toFinset
          = insert (keyOf cc a) (insert (keyOf b cc) (insert (keyOf a b) S))
            ∪ (keysList rest).toFinset := by
        rw [hKf]
        ext x
        simp only [Finset.mem_union, Finset.mem_insert]
        tauto
      have hnum : s + ((keysList (a :: b :: cc :: rest)).toFinset \ S).card
          = s3 + ((keysList rest).toFinset
              \ insert (keyOf cc a) (insert (keyOf b cc) (insert (keyOf a b) S))).card := by
        rw [hKf, hcard]
        omega
      rw [hset, hnum]
      exact hC'
    · have hnum : s + ((keysList (a :: b :: cc :: rest)).toFinset \ S).card
          = s3 + ((keysList rest).toFinset
              \ insert (keyOf cc a) (insert (keyOf b cc) (insert (keyOf a b) S))).card := by
        rw [hKf, hcard]
        omega
      simp only [subdivideLoopE]
      rw [h1]
      dsimp only
      rw [h2]
      dsimp only
      rw [h3]
      dsimp only
      rw [heq, hnum]
      refine congrArg _ ?_
      show (m3 :: m2 :: m1 :: cc :: m2 :: m3 :: m2 :: b :: m1 :: m3 :: m1 :: a :: acc).reverse
          ++ childFlat c' (triples rest)
        = acc.reverse ++ childFlat c' (triples (a :: b :: cc :: rest))
      have hch : childFlat c' (triples (a :: b :: cc :: rest))
          = a :: m1 :: m3 :: m1 :: b :: m2 :: m3 :: m2 :: cc :: m1 :: m2 :: m3
              :: childFlat c' (triples rest) := by
        show childFlat c' ((a, b, cc) :: triples rest) = _
        rw [childFlat]
        simp [cacheGetD, hg1, hg2, hg3]
      rw [hch]
      simp

/-- "Two triangles share at most one edge key": any two shared keys agree. -/
@[reducible]
def shareLe1 (t t' : ℕ × ℕ × ℕ) : Prop :=
  ∀ k ∈ triKeys t, k ∈ triKeys t' → ∀ k' ∈ triKeys t, k' ∈ triKeys t' → k = k'

/-- Well-formedness of the triangle mesh held as a flat index list over `s`
vertices: whole triples only, all indices in range, per-triangle distinct
corners, and no two (occurrences of) triangles share more than one edge. -/
structure MeshInv (s : ℕ) (idx : List ℕ) : Prop where
  len3 : idx.length % 3 = 0
  bound : ∀ t ∈ triples idx, t.1 < s ∧ t.2.1 < s ∧ t.2.2 < s
  dist : ∀ t ∈ triples idx, t.1 ≠ t.2.1 ∧ t.2.1 ≠ t.2.2 ∧ t.2.2 ≠ t.1
  share : (triples idx).Pairwise shareLe1

/-- The four child triangles of `t` with midpoints read off a cache. -/
def midTris (c : Cache) (t : ℕ × ℕ × ℕ) : List (ℕ × ℕ × ℕ) :=
  childTris (cacheGetD c (keyOf t.1 t.2.1)) (cacheGetD c (keyOf t.2.1 t.2.2))
    (cacheGetD c (keyOf t.2.2 t.1)) t

theorem keyOf_eq_pair {a b c d : ℕ} :
    keyOf a b = keyOf c d ↔ (a = c ∧ b = d) ∨ (a = d ∧ b = c) := by
  rw [keyOf_minmax, keyOf_minmax, Prod.ext_iff]
  constructor <;> intro h <;> omega

theorem triKeys_tuple (a b c : ℕ) :
    triKeys (a, b, c) = [keyOf a b, keyOf b c, keyOf c a] := rfl

theorem triples_childFlat (c : Cache) :
    ∀ ts : List (ℕ × ℕ × ℕ), triples (childFlat c ts) = ts.flatMap (midTris c)
  | [] => rfl
  | (a, b, cc) :: rest => by
    show triples (childFlat c ((a, b, cc) :: rest)) = _
    rw [childFlat]
    show (a, cacheGetD c (keyOf a b), cacheGetD c (keyOf cc a))
        :: (cacheGetD c (keyOf a b), b, cacheGetD c (keyOf b cc))
        :: (cacheGetD c (keyOf cc a), cacheGetD c (keyOf b cc), cc)
        :: (cacheGetD c (keyOf a b), cacheGetD c (keyOf b cc), cacheGetD c (keyOf cc a))
        :: triples (childFlat c rest) = _
    rw [triples_childFlat c rest]
    rfl

theorem childFlat_length (c : Cache) :
    ∀ ts : List (ℕ × ℕ × ℕ), (childFlat c ts).length = 12 * ts.length
  | [] => rfl
  | (a, b, cc) :: rest => by
    rw [childFlat]
    simp only [List.length_cons, childFlat_length c rest]
    ring

theorem triples_length :
    ∀ idx : List ℕ, idx.length % 3 = 0 → 3 * (triples idx).length = idx.length
  | [], _ => rfl
  | [_], h => by simp at h
  | [_, _], h => by simp at h
  | _ :: _ :: _ :: rest, h => by
    show 3 * (triples rest).length + 3 = rest.length + 3
    rw [triples_length rest (by simp only [List.length_cons] at h; omega)]

theorem keysList_childFlat (c : Cache) (ts : List (ℕ × ℕ × ℕ)) :
    keysList (childFlat c ts) = ts.flatMap (fun t => (midTris c t).flatMap triKeys) := by
  rw [keysList, triples_childFlat]
  exact List.bind_assoc ts (midTris c) triKeys

theorem triKeys_sub_keysList {t : ℕ × ℕ × ℕ} {idx : List ℕ} (ht : t ∈ triples idx) :
    ∀ k ∈ triKeys t, k ∈ keysList idx := by
  intro k hk
  rw [keysList, List.mem_flatMap]
  exact ⟨t, ht, hk⟩

theorem triKeys_fst_snd {s : ℕ} {a b c : ℕ} (ha : a < s) (hb : b < s) (hc : c < s) :
    ∀ k ∈ triKeys (a, b, c), k.1 < s ∧ k.2 < s := by
  intro k hk
  simp only [triKeys_tuple, List.mem_cons, List.not_mem_nil, or_false] at hk
  rcases hk with rfl | rfl | rfl <;> rw [keyOf_minmax] <;>
    exact ⟨by simp; omega, by simp; omega⟩

theorem shareLe1_of_all {u v : ℕ × ℕ × ℕ} (k0 : ℕ × ℕ)
    (h : ∀ k ∈ triKeys u, k ∈ triKeys v → k = k0) : shareLe1 u v := by
  intro k hk hk' k' hl hl'
  rw [h k hk hk', h k' hl hl']

/-- The four children of a single parent triangle pairwise share at most one
edge key (the common key being the relevant center edge). -/
theorem childTris_pairwise (s a b cc m1 m2 m3 : ℕ)
    (ha : a < s) (hb : b < s) (hcc : cc < s)
    (hab : a ≠ b) (hbc : b ≠ cc) (hca : cc ≠ a)
    (hm1 : s ≤ m1) (hm2 : s ≤ m2) (hm3 : s ≤ m3)
    (h12 : m1 ≠ m2) (h23 : m2 ≠ m3) (h31 : m3 ≠ m1) :
    (childTris m1 m2 m3 (a, b, cc)).Pairwise shareLe1 := by
  rw [childTris]
  refine List.Pairwise.cons ?_ (List.Pairwise.cons ?_ (List.Pairwise.cons ?_
    (List.pairwise_singleton _ _)))
  · intro t' ht'
    simp only [List.mem_cons, List.not_mem_nil, or_false] at ht'
    rcases ht' with rfl | rfl | rfl
    · refine shareLe1_of_all (keyOf 0 0) ?_
      intro k hk hk'
      simp only [triKeys_tuple, List.mem_cons, List.not_mem_nil, or_false] at hk hk'
      rcases hk with rfl | rfl | rfl <;> rcases hk' with h | h | h <;>
        rw [keyOf_eq_pair] at h <;> omega
    · refine shareLe1_of_all (keyOf 0 0) ?_
      intro k hk hk'
      simp only [triKeys_tuple, List.mem_cons, List.not_mem_nil, or_false] at hk hk'
      rcases hk with rfl | rfl | rfl <;> rcases hk' with h | h | h <;>
        rw [keyOf_eq_pair] at h <;> omega
    · refine shareLe1_of_all (keyOf m1 m3) ?_
      intro k hk hk'
      simp only [triKeys_tuple, List.mem_cons, List.not_mem_nil, or_false] at hk hk'
      rcases hk with rfl | rfl | rfl <;> rcases hk' with h | h | h <;>
        rw [keyOf_eq_pair] at h <;> rw [keyOf_eq_pair] <;> omega
  · intro t' ht'
    simp only [List.mem_cons, List.not_mem_nil, or_false] at ht'
    rcases ht' with rfl | rfl
    · refine shareLe1_of_all (keyOf 0 0) ?_
      intro k hk hk'
      simp only [triKeys_tuple, List.mem_cons, List.not_mem_nil, or_false] at hk hk'
      rcases hk with rfl | rfl | rfl <;> rcases hk' with h | h | h <;>
        rw [keyOf_eq_pair] at h <;> omega
    · refine shareLe1_of_all (keyOf m1 m2) ?_
      intro k hk hk'
      simp only [triKeys_tuple, List.mem_cons, List.not_mem_nil, or_false] at hk hk'
      rcases hk with rfl | rfl | rfl <;> rcases hk' with h | h | h <;>
        rw [keyOf_eq_pair] at h <;> rw [keyOf_eq_pair] <;> omega
  · intro t' ht'
    simp only [List.mem_cons, List.not_mem_nil, or_false] at ht'
    rcases ht' with rfl
    refine shareLe1_of_all (keyOf m2 m3) ?_
    intro k hk hk'
    simp only [triKeys_tuple, List.mem_cons, List.not_mem_nil, or_false] at hk hk'
    rcases hk with rfl | rfl | rfl <;> rcases hk' with h | h | h <;>
      rw [keyOf_eq_pair] at h <;> rw [keyOf_eq_pair] <;> omega

/-- Every edge key of a child triangle is either a half-edge (an original
endpoint paired with the midpoint of a parent edge) or a center edge (two
midpoints of distinct parent edges). -/
theorem childKey_shape (M : ℕ × ℕ → ℕ) (a b cc : ℕ) (u : ℕ × ℕ × ℕ) (k : ℕ × ℕ)
    (hab : a ≠ b) (hbc : b ≠ cc) (hca : cc ≠ a)
    (hu : u ∈ childTris (M (keyOf a b)) (M (keyOf b cc)) (M (keyOf cc a)) (a, b, cc))
    (hk : k ∈ triKeys u) :
    (∃ v e, e ∈ triKeys (a, b, cc) ∧ (v = e.1 ∨ v = e.2) ∧ k = keyOf v (M e))
    ∨ (∃ e f, e ∈ triKeys (a, b, cc) ∧ f ∈ triKeys (a, b, cc) ∧ e ≠ f
        ∧ k = keyOf (M e) (M f)) := by
  have he1 : keyOf a b ∈ triKeys (a, b, cc) := by simp [triKeys_tuple]
  have he2 : keyOf b cc ∈ triKeys (a, b, cc) := by simp [triKeys_tuple]
  have he3 : keyOf cc a ∈ triKeys (a, b, cc) := by simp [triKeys_tuple]
  have hne12 : keyOf a b ≠ keyOf b cc := by rw [Ne, keyOf_eq_pair]; omega
  have hne23 : keyOf b cc ≠ keyOf cc a := by rw [Ne, keyOf_eq_pair]; omega
  have hne31 : keyOf cc a ≠ keyOf a b := by rw [Ne, keyOf_eq_pair]; omega
  have hend1a : a = (keyOf a b).1 ∨ a = (keyOf a b).2 := by rw [keyOf_minmax]; simp; omega
  have hend1b : b = (keyOf a b).1 ∨ b = (keyOf a b).2 := by rw [keyOf_minmax]; simp; omega
  have hend2b : b = (keyOf b cc).1 ∨ b = (keyOf b cc).2 := by rw [keyOf_minmax]; simp; omega
  have hend2c : cc = (keyOf b cc).1 ∨ cc = (keyOf b cc).2 := by rw [keyOf_minmax]; simp; omega
  have hend3c : cc = (keyOf cc a).1 ∨ cc = (keyOf cc a).2 := by rw [keyOf_minmax]; simp; omega
  have hend3a : a = (keyOf cc a).1 ∨ a = (keyOf cc a).2 := by rw [keyOf_minmax]; simp; omega
  simp only [childTris, List.mem_cons, List.not_mem_nil, or_false] at hu
  rcases hu with rfl | rfl | rfl | rfl <;>
    simp only [triKeys_tuple, List.mem_cons, List.not_mem_nil, or_false] at hk <;>
    rcases hk with rfl | rfl | rfl
  · exact Or.inl ⟨a, keyOf a b, he1, hend1a, rfl⟩
  · exact Or.inr ⟨keyOf a b, keyOf cc a, he1, he3, hne31.symm, rfl⟩
  · exact Or.inl ⟨a, keyOf cc a, he3, hend3a, keyOf_comm _ _⟩
  · exact Or.inl ⟨b, keyOf a b, he1, hend1b, keyOf_comm _ _⟩
  · exact Or.inl ⟨b, keyOf b cc, he2, hend2b, rfl⟩
  · exact Or.inr ⟨keyOf b cc, keyOf a b, he2, he1, hne12.symm, rfl⟩
  · exact Or.inr ⟨keyOf cc a, keyOf b cc, he3, he2, hne23.symm, rfl⟩
  · exact Or.inl ⟨cc, keyOf b cc, he2, hend2c, keyOf_comm _ _⟩
  · exact Or.inl ⟨cc, keyOf cc a, he3, hend3c, rfl⟩
  · exact Or.inr ⟨keyOf a b, keyOf b cc, he1, he2, hne12, rfl⟩
  · exact Or.inr ⟨keyOf b cc, keyOf cc a, he2, he3, hne23, rfl⟩
  · exact Or.inr ⟨keyOf cc a, keyOf a b, he3, he1, hne31, rfl⟩

/-- Inside one child triangle, a half-edge key is determined by its midpoint
endpoint. -/
theorem child_half_unique (s a b cc m1 m2 m3 v v' m : ℕ)
    (ha : a < s) (hb : b < s) (hcc : cc < s)
    (hm1 : s ≤ m1) (hm2 : s ≤ m2) (hm3 : s ≤ m3)
    (h12 : m1 ≠ m2) (h23 : m2 ≠ m3) (h31 : m3 ≠ m1)
    (u : ℕ × ℕ × ℕ) (k k' : ℕ × ℕ)
    (hu : u ∈ childTris m1 m2 m3 (a, b, cc))
    (hk : k ∈ triKeys u) (hk' : k' ∈ triKeys u)
    (hks : k = keyOf v m) (hk's : k' = keyOf v' m)
    (hv : v < s) (hv' : v' < s) (hm : s ≤ m) :
    k = k' := by
  simp only [childTris, List.mem_cons, List.not_mem_nil, or_false] at hu
  rcases hu with rfl | rfl | rfl | rfl <;>
    simp only [triKeys_tuple, List.mem_cons, List.not_mem_nil, or_false] at hk hk' <;>
    rcases hk with rfl | rfl | rfl <;> rcases hk' with rfl | rfl | rfl <;>
    rw [keyOf_eq_pair] at hks hk's <;> rw [keyOf_eq_pair] <;> omega

/-- Children of two different parents that share at most one edge themselves
share at most one edge: shared child keys are half-edges of the (unique)
shared parent edge, and a half-edge of a given midpoint is unique within a
child. -/
theorem cross_children (M : ℕ × ℕ → ℕ) (s : ℕ) (a b cc x y z : ℕ)
    (ha : a < s) (hb : b < s) (hcc : cc < s) (hx : x < s) (hy : y < s) (hz : z < s)
    (hab : a ≠ b) (hbc : b ≠ cc) (hca : cc ≠ a)
    (hxy : x ≠ y) (hyz : y ≠ z) (hzx : z ≠ x)
    (hrng : ∀ k, k ∈ triKeys (a, b, cc) ∨ k ∈ triKeys (x, y, z) → s ≤ M k)
    (hinj : ∀ k k', k ∈ triKeys (a, b, cc) ∨ k ∈ triKeys (x, y, z) →
      k' ∈ triKeys (a, b, cc) ∨ k' ∈ triKeys (x, y, z) → M k = M k' → k = k')
    (hsh : shareLe1 (a, b, cc) (x, y, z)) :
    ∀ u ∈ childTris (M (keyOf a b)) (M (keyOf b cc)) (M (keyOf cc a)) (a, b, cc),
      ∀ v ∈ childTris (M (keyOf x y)) (M (keyOf y z)) (M (keyOf z x)) (x, y, z),
        shareLe1 u v := by
  have hPb : ∀ e ∈ triKeys (a, b, cc), e.1 < s ∧ e.2 < s := triKeys_fst_snd ha hb hcc
  have hQb : ∀ e ∈ triKeys (x, y, z), e.1 < s ∧ e.2 < s := triKeys_fst_snd hx hy hz
  have main : ∀ kk : ℕ × ℕ,
      ((∃ v e, e ∈ triKeys (a, b, cc) ∧ (v = e.1 ∨ v = e.2) ∧ kk = keyOf v (M e))
        ∨ (∃ e f, e ∈ triKeys (a, b, cc) ∧ f ∈ triKeys (a, b, cc) ∧ e ≠ f
            ∧ kk = keyOf (M e) (M f))) →
      ((∃ v e, e ∈ triKeys (x, y, z) ∧ (v = e.1 ∨ v = e.2) ∧ kk = keyOf v (M e))
        ∨ (∃ e f, e ∈ triKeys (x, y, z) ∧ f ∈ triKeys (x, y, z) ∧ e ≠ f
            ∧ kk = keyOf (M e) (M f))) →
      ∃ w e, e ∈ triKeys (a, b, cc) ∧ e ∈ triKeys (x, y, z)
        ∧ w < s ∧ kk = keyOf w (M e) := by
    intro kk h1 h2
    rcases h1 with ⟨w, e, heP, hwend, hkk⟩ | ⟨e, f, heP, hfP, hef, hkk⟩
    · have hw : w < s := by
        rcases hwend with h | h <;> rcases hPb e heP with ⟨hb1, hb2⟩ <;> omega
      have hMe : s ≤ M e := hrng e (Or.inl heP)
      rcases h2 with ⟨w2, e2, he2Q, hw2end, hkk2⟩ | ⟨e2, f2, he2Q, hf2Q, he2f2, hkk2⟩
      · have hw2 : w2 < s := by
          rcases hw2end with h | h <;> rcases hQb e2 he2Q with ⟨hb1, hb2⟩ <;> omega
        have hMe2 : s ≤ M e2 := hrng e2 (Or.inr he2Q)
        have heq : keyOf w (M e) = keyOf w2 (M e2) := by rw [← hkk, hkk2]
        rw [keyOf_eq_pair] at heq
        have hwe : w = w2 ∧ M e = M e2 := by omega
        have hee : e = e2 := hinj e e2 (Or.inl heP) (Or.inr he2Q) hwe.2
        refine ⟨w, e, heP, ?_, hw, hkk⟩
        rw [hee]
        exact he2Q
      · have hMe2 : s ≤ M e2 := hrng e2 (Or.inr he2Q)
        have hMf2 : s ≤ M f2 := hrng f2 (Or.inr hf2Q)
        have heq : keyOf w (M e) = keyOf (M e2) (M f2) := by rw [← hkk, hkk2]
        rw [keyOf_eq_pair] at heq
        exact absurd heq (by omega)
    · have hMe : s ≤ M e := hrng e (Or.inl heP)
      have hMf : s ≤ M f := hrng f (Or.inl hfP)
      rcases h2 with ⟨w2, e2, he2Q, hw2end, hkk2⟩ | ⟨e2, f2, he2Q, hf2Q, he2f2, hkk2⟩
      · have hw2 : w2 < s := by
          rcases hw2end with h | h <;> rcases hQb e2 he2Q with ⟨hb1, hb2⟩ <;> omega
        have heq : keyOf (M e) (M f) = keyOf w2 (M e2) := by rw [← hkk, hkk2]
        rw [keyOf_eq_pair] at heq
        exact absurd heq (by omega)
      · have hMe2 : s ≤ M e2 := hrng e2 (Or.inr he2Q)
        have hMf2 : s ≤ M f2 := hrng f2 (Or.inr hf2Q)
        have heq : keyOf (M e) (M f) = keyOf (M e2) (M f2) := by rw [← hkk, hkk2]
        rw [keyOf_eq_pair] at heq
        rcases heq with ⟨hA, hB⟩ | ⟨hA, hB⟩
        · have he2' : e = e2 := hinj e e2 (Or.inl heP) (Or.inr he2Q) hA
          have hf2' : f = f2 := hinj f f2 (Or.inl hfP) (Or.inr hf2Q) hB
          refine absurd (hsh e heP ?_ f hfP ?_) hef
          · rw [he2']
            exact he2Q
          · rw [hf2']
            exact hf2Q
        · have he2' : e = f2 := hinj e f2 (Or.inl heP) (Or.inr hf2Q) hA
          have hf2' : f = e2 := hinj f e2 (Or.inl hfP) (Or.inr he2Q) hB
          refine absurd (hsh e heP ?_ f hfP ?_) hef
          · rw [he2']
            exact hf2Q
          · rw [hf2']
            exact he2Q
  intro u hu v hv k hk hk2 k' hk1' hk2'
  obtain ⟨w, e, heP, heQ, hw, hkk⟩ :=
    main k (childKey_shape M a b cc u k hab hbc hca hu hk)
      (childKey_shape M x y z v k hxy hyz hzx hv hk2)
  obtain ⟨w', f, hfP, hfQ, hw', hkk'⟩ :=
    main k' (childKey_shape M a b cc u k' hab hbc hca hu hk1')
      (childKey_shape M x y z v k' hxy hyz hzx hv hk2')
  have hef : e = f := hsh e heP heQ f hfP hfQ
  rw [← hef] at hkk'
  have he1 : keyOf a b ∈ triKeys (a, b, cc) := by simp [triKeys_tuple]
  have he2 : keyOf b cc ∈ triKeys (a, b, cc) := by simp [triKeys_tuple]
  have he3 : keyOf cc a ∈ triKeys (a, b, cc) := by simp [triKeys_tuple]
  have hne12 : keyOf a b ≠ keyOf b cc := by rw [Ne, keyOf_eq_pair]; omega
  have hne23 : keyOf b cc ≠ keyOf cc a := by rw [Ne, keyOf_eq_pair]; omega
  have hne31 : keyOf cc a ≠ keyOf a b := by rw [Ne, keyOf_eq_pair]; omega
  exact child_half_unique s a b cc (M (keyOf a b)) (M (keyOf b cc)) (M (keyOf cc a))
    w w' (M e) ha hb hcc
    (hrng _ (Or.inl he1)) (hrng _ (Or.inl he2)) (hrng _ (Or.inl he3))
    (fun hMeq => hne12 (hinj _ _ (Or.inl he1) (Or.inl he2) hMeq))
    (fun hMeq => hne23 (hinj _ _ (Or.inl he2) (Or.inl he3) hMeq))
    (fun hMeq => hne31 (hinj _ _ (Or.inl he3) (Or.inl he1) hMeq))
    u k k' hu hk hk1' hkk hkk' hw hw' (hrng e (Or.inl heP))

/-- One cache-driven subdivision step preserves mesh well-formedness, the
midpoints being fresh, injectively assigned indices below the new vertex
count `s'`. -/
theorem meshInv_child (s s' : ℕ) (idx : List ℕ) (c' : Cache)
    (hM : MeshInv s idx) (hss : s ≤ s')
    (hdom : ∀ k ∈ keysList idx, (cacheFind c' k).isSome = true)
    (hinj : ∀ k k' m, cacheFind c' k = some m → cacheFind c' k' = some m → k = k')
    (hrng : ∀ k m, cacheFind c' k = some m → s ≤ m ∧ m < s') :
    MeshInv s' (childFlat c' (triples idx)) := by
  have hMv : ∀ k ∈ keysList idx, cacheFind c' k = some (cacheGetD c' k) := by
    intro k hk
    rcases Option.isSome_iff_exists.mp (hdom k hk) with ⟨m, hm⟩
    rw [cacheGetD, hm]
    rfl
  have hMrng : ∀ k ∈ keysList idx, s ≤ cacheGetD c' k ∧ cacheGetD c' k < s' :=
    fun k hk => hrng _ _ (hMv k hk)
  have hMinj : ∀ k k', k ∈ keysList idx → k' ∈ keysList idx →
      cacheGetD c' k = cacheGetD c' k' → k = k' := by
    intro k k' h1 h2 he
    refine hinj _ _ _ (hMv k h1) ?_
    rw [he]
    exact hMv k' h2
  refine ⟨?_, ?_, ?_, ?_⟩
  · rw [childFlat_length]
    omega
  · intro t' ht'
    rw [triples_childFlat, List.mem_flatMap] at ht'
    obtain ⟨t, htts, htm⟩ := ht'
    obtain ⟨a, b, cc⟩ := t
    have hbd := hM.bound _ htts
    dsimp only at hbd
    have hk1 : keyOf a b ∈ keysList idx :=
      triKeys_sub_keysList htts _ (by simp [triKeys_tuple])
    have hk2 : keyOf b cc ∈ keysList idx :=
      triKeys_sub_keysList htts _ (by simp [triKeys_tuple])
    have hk3 : keyOf cc a ∈ keysList idx :=
      triKeys_sub_keysList htts _ (by simp [triKeys_tuple])
    have hr1 := hMrng _ hk1
    have hr2 := hMrng _ hk2
    have hr3 := hMrng _ hk3
    simp only [midTris, childTris, List.mem_cons, List.not_mem_nil, or_false] at htm
    rcases htm with rfl | rfl | rfl | rfl <;> refine ⟨?_, ?_, ?_⟩ <;> dsimp only <;> omega
  · intro t' ht'
    rw [triples_childFlat, List.mem_flatMap] at ht'
    obtain ⟨t, htts, htm⟩ := ht'
    obtain ⟨a, b, cc⟩ := t
    have hbd := hM.bound _ htts
    have hdi := hM.dist _ htts
    dsimp only at hbd hdi
    have hk1 : keyOf a b ∈ keysList idx :=
      triKeys_sub_keysList htts _ (by simp [triKeys_tuple])
    have hk2 : keyOf b cc ∈ keysList idx :=
      triKeys_sub_keysList htts _ (by simp [triKeys_tuple])
    have hk3 : keyOf cc a ∈ keysList idx :=
      triKeys_sub_keysList htts _ (by simp [triKeys_tuple])
    have hr1 := hMrng _ hk1
    have hr2 := hMrng _ hk2
    have hr3 := hMrng _ hk3
    have hq12 : keyOf a b ≠ keyOf b cc := by
      rw [Ne, keyOf_eq_pair]
      omega
    have hq23 : keyOf b cc ≠ keyOf cc a := by
      rw [Ne, keyOf_eq_pair]
      omega
    have hq31 : keyOf cc a ≠ keyOf a b := by
      rw [Ne, keyOf_eq_pair]
      omega
    have hn12 : cacheGetD c' (keyOf a b) ≠ cacheGetD c' (keyOf b cc) :=
      fun hMeq => hq12 (hMinj _ _ hk1 hk2 hMeq)
    have hn23 : cacheGetD c' (keyOf b cc) ≠ cacheGetD c' (keyOf cc a) :=
      fun hMeq => hq23 (hMinj _ _ hk2 hk3 hMeq)
    have hn31 : cacheGetD c' (keyOf cc a) ≠ cacheGetD c' (keyOf a b) :=
      fun hMeq => hq31 (hMinj _ _ hk3 hk1 hMeq)
    simp only [midTris, childTris, List.mem_cons, List.not_mem_nil, or_false] at htm
    rcases htm with rfl | rfl | rfl | rfl <;> refine ⟨?_, ?_, ?_⟩ <;> dsimp only <;> omega
  · rw [triples_childFlat, List.pairwise_bind]
    constructor
    · intro t htts
      obtain ⟨a, b, cc⟩ := t
      have hbd := hM.bound _ htts
      have hdi := hM.dist _ htts
      dsimp only at hbd hdi
      have hk1 : keyOf a b ∈ keysList idx :=
        triKeys_sub_keysList htts _ (by simp [triKeys_tuple])
      have hk2 : keyOf b cc ∈ keysList idx :=
        triKeys_sub_keysList htts _ (by simp [triKeys_tuple])
      have hk3 : keyOf cc a ∈ keysList idx :=
        triKeys_sub_keysList htts _ (by simp [triKeys_tuple])
      have hq12 : keyOf a b ≠ keyOf b cc := by
        rw [Ne, keyOf_eq_pair]
        omega
      have hq23 : keyOf b cc ≠ keyOf cc a := by
        rw [Ne, keyOf_eq_pair]
        omega
      have hq31 : keyOf cc a ≠ keyOf a b := by
        rw [Ne, keyOf_eq_pair]
        omega
      show (midTris c' (a, b, cc)).Pairwise shareLe1
      simp only [midTris]
      exact childTris_pairwise s a b cc _ _ _ hbd.1 hbd.2.1 hbd.2.2
        hdi.1 hdi.2.1 hdi.2.2
        (hMrng _ hk1).1 (hMrng _ hk2).1 (hMrng _ hk3).1
        (fun hMeq => hq12 (hMinj _ _ hk1 hk2 hMeq))
        (fun hMeq => hq23 (hMinj _ _ hk2 hk3 hMeq))
        (fun hMeq => hq31 (hMinj _ _ hk3 hk1 hMeq))
    · refine List.Pairwise.imp_of_mem ?_ hM.share
      intro t t' htm htm' hR
      obtain ⟨a, b, cc⟩ := t
      obtain ⟨x, y, z⟩ := t'
      have hbd := hM.bound _ htm
      have hdi := hM.dist _ htm
      have hbd' := hM.bound _ htm'
      have hdi' := hM.dist _ htm'
      dsimp only at hbd hdi hbd' hdi'
      intro u hu v hv
      simp only [midTris] at hu hv
      refine cross_children (cacheGetD c') s a b cc x y z
        hbd.1 hbd.2.1 hbd.2.2 hbd'.1 hbd'.2.1 hbd'.2.2
        hdi.1 hdi.2.1 hdi.2.2 hdi'.1 hdi'.2.1 hdi'.2.2
        ?_ ?_ hR u hu v hv
      · intro k hk
        rcases hk with hk | hk
        · exact (hMrng _ (triKeys_sub_keysList htm _ hk)).1
        · exact (hMrng _ (triKeys_sub_keysList htm' _ hk)).1
      · intro k k' hk hk' hMeq
        refine hMinj _ _ ?_ ?_ hMeq
        · rcases hk with hk | hk
          · exact triKeys_sub_keysList htm _ hk
          · exact triKeys_sub_keysList htm' _ hk
        · rcases hk' with hk' | hk'
          · exact triKeys_sub_keysList htm _ hk'
          · exact triKeys_sub_keysList htm' _ hk'

/-- The center child of a parent triangle, all of whose edges are center
edges. -/
def centTri (c : Cache) (t : ℕ × ℕ × ℕ) : ℕ × ℕ × ℕ :=
  (cacheGetD c (keyOf t.1 t.2.1), cacheGetD c (keyOf t.2.1 t.2.2),
   cacheGetD c (keyOf t.2.2 t.1))

/-- All center-edge keys of a subdivision step. -/
def centKeys (c : Cache) (ts : List (ℕ × ℕ × ℕ)) : List (ℕ × ℕ) :=
  ts.flatMap (fun t => triKeys (centTri c t))

theorem centKeys_length (c : Cache) :
    ∀ ts : List (ℕ × ℕ × ℕ), (centKeys c ts).length = ts.length * 3
  | [] => rfl
  | t :: rest => by
    show (triKeys (centTri c t) ++ centKeys c rest).length = _
    rw [List.length_append, centKeys_length c rest, List.length_cons]
    show 3 + rest.length * 3 = (rest.length + 1) * 3
    ring

theorem keyOf_fst_lt_snd {u w : ℕ} (h : u ≠ w) : (keyOf u w).1 < (keyOf u w).2 := by
  rw [keyOf_minmax]
  simp only
  omega

theorem keys_bound {s : ℕ} {idx : List ℕ} (hM : MeshInv s idx) :
    ∀ e ∈ keysList idx, e.1 < s ∧ e.2 < s := by
  intro e he
  rw [keysList, List.mem_flatMap] at he
  obtain ⟨t, ht, hkt⟩ := he
  obtain ⟨a, b, cc⟩ := t
  have hbd := hM.bound _ ht
  dsimp only at hbd
  exact triKeys_fst_snd hbd.1 hbd.2.1 hbd.2.2 e hkt

theorem keys_lt {s : ℕ} {idx : List ℕ} (hM : MeshInv s idx) :
    ∀ e ∈ keysList idx, e.1 < e.2 := by
  intro e he
  rw [keysList, List.mem_flatMap] at he
  obtain ⟨t, ht, hkt⟩ := he
  obtain ⟨a, b, cc⟩ := t
  have hdi := hM.dist _ ht
  dsimp only at hdi
  simp only [triKeys_tuple, List.mem_cons, List.not_mem_nil, or_false] at hkt
  rcases hkt with rfl | rfl | rfl
  · exact keyOf_fst_lt_snd hdi.1
  · exact keyOf_fst_lt_snd hdi.2.1
  · exact keyOf_fst_lt_snd hdi.2.2

/-- Two parents sharing at most one edge cannot produce a common center
edge. -/
theorem cent_clash (G : ℕ × ℕ → ℕ) (p q : ℕ × ℕ × ℕ) (e f e' f' : ℕ × ℕ)
    (hinj2 : ∀ k k', (k ∈ triKeys p ∨ k ∈ triKeys q) →
      (k' ∈ triKeys p ∨ k' ∈ triKeys q) → G k = G k' → k = k')
    (hsh : shareLe1 p q)
    (heP : e ∈ triKeys p) (hfP : f ∈ triKeys p) (hef : e ≠ f)
    (he'Q : e' ∈ triKeys q) (hf'Q : f' ∈ triKeys q)
    (heq : keyOf (G e) (G f) = keyOf (G e') (G f')) : False := by
  rw [keyOf_eq_pair] at heq
  rcases heq with ⟨hA, hB⟩ | ⟨hA, hB⟩
  · have h1 : e = e' := hinj2 e e' (Or.inl heP) (Or.inr he'Q) hA
    have h2 : f = f' := hinj2 f f' (Or.inl hfP) (Or.inr hf'Q) hB
    refine hef (hsh e heP ?_ f hfP ?_)
    · rw [h1]
      exact he'Q
    · rw [h2]
      exact hf'Q
  · have h1 : e = f' := hinj2 e f' (Or.inl heP) (Or.inr hf'Q) hA
    have h2 : f = e' := hinj2 f e' (Or.inl hfP) (Or.inr he'Q) hB
    refine hef (hsh e heP ?_ f hfP ?_)
    · rw [h1]
      exact hf'Q
    · rw [h2]
      exact he'Q

/-- Every half-edge of a parent edge occurs among the parent's children. -/
theorem half_in_children (c : Cache) (a b cc v : ℕ) (e : ℕ × ℕ)
    (heT : e ∈ triKeys (a, b, cc)) (hv : v = e.1 ∨ v = e.2) :
    ∃ u ∈ midTris c (a, b, cc), keyOf v (cacheGetD c e) ∈ triKeys u := by
  simp only [triKeys_tuple, List.mem_cons, List.not_mem_nil, or_false] at heT
  rcases heT with rfl | rfl | rfl <;> rw [keyOf_minmax] at hv <;> dsimp only at hv <;>
    rcases hv with rfl | rfl
  · rcases Nat.lt_or_ge a b with hlt | hge
    · rw [Nat.min_eq_left (Nat.le_of_lt hlt)]
      exact ⟨(a, cacheGetD c (keyOf a b), cacheGetD c (keyOf cc a)),
        by simp [midTris, childTris], by simp [triKeys_tuple]⟩
    · rw [Nat.min_eq_right hge]
      refine ⟨(cacheGetD c (keyOf a b), b, cacheGetD c (keyOf b cc)),
        by simp [midTris, childTris], ?_⟩
      rw [keyOf_comm b (cacheGetD c (keyOf a b))]
      simp [triKeys_tuple]
  · rcases Nat.lt_or_ge a b with hlt | hge
    · rw [Nat.max_eq_right (Nat.le_of_lt hlt)]
      refine ⟨(cacheGetD c (keyOf a b), b, cacheGetD c (keyOf b cc)),
        by simp [midTris, childTris], ?_⟩
      rw [keyOf_comm b (cacheGetD c (keyOf a b))]
      simp [triKeys_tuple]
    · rw [Nat.max_eq_left hge]
      exact ⟨(a, cacheGetD c (keyOf a b), cacheGetD c (keyOf cc a)),
        by simp [midTris, childTris], by simp [triKeys_tuple]⟩
  · rcases Nat.lt_or_ge b cc with hlt | hge
    · rw [Nat.min_eq_left (Nat.le_of_lt hlt)]
      exact ⟨(cacheGetD c (keyOf a b), b, cacheGetD c (keyOf b cc)),
        by simp [midTris, childTris], by simp [triKeys_tuple]⟩
    · rw [Nat.min_eq_right hge]
      refine ⟨(cacheGetD c (keyOf cc a), cacheGetD c (keyOf b cc), cc),
        by simp [midTris, childTris], ?_⟩
      rw [keyOf_comm cc (cacheGetD c (keyOf b cc))]
      simp [triKeys_tuple]
  · rcases Nat.lt_or_ge b cc with hlt | hge
    · rw [Nat.max_eq_right (Nat.le_of_lt hlt)]
      refine ⟨(cacheGetD c (keyOf cc a), cacheGetD c (keyOf b cc), cc),
        by simp [midTris, childTris], ?_⟩
      rw [keyOf_comm cc (cacheGetD c (keyOf b cc))]
      simp [triKeys_tuple]
    · rw [Nat.max_eq_left hge]
      exact ⟨(cacheGetD c (keyOf a b), b, cacheGetD c (keyOf b cc)),
        by simp [midTris, childTris], by simp [triKeys_tuple]⟩
  · rcases Nat.lt_or_ge cc a with hlt | hge
    · rw [Nat.min_eq_left (Nat.le_of_lt hlt)]
      exact ⟨(cacheGetD c (keyOf cc a), cacheGetD c (keyOf b cc), cc),
        by simp [midTris, childTris], by simp [triKeys_tuple]⟩
    · rw [Nat.min_eq_right hge]
      refine ⟨(a, cacheGetD c (keyOf a b), cacheGetD c (keyOf cc a)),
        by simp [midTris, childTris], ?_⟩
      rw [keyOf_comm a (cacheGetD c (keyOf cc a))]
      simp [triKeys_tuple]
  · rcases Nat.lt_or_ge cc a with hlt | hge
    · rw [Nat.max_eq_right (Nat.le_of_lt hlt)]
      refine ⟨(a, cacheGetD c (keyOf a b), cacheGetD c (keyOf cc a)),
        by simp [midTris, childTris], ?_⟩
      rw [keyOf_comm a (cacheGetD c (keyOf cc a))]
      simp [triKeys_tuple]
    · rw [Nat.max_eq_left hge]
      exact ⟨(cacheGetD c (keyOf cc a), cacheGetD c (keyOf b cc), cc),
        by simp [midTris, childTris], by simp [triKeys_tuple]⟩

/-- One subdivision step has `2·E + 3·T` distinct edge keys: two half-edges
per old edge and three center edges per old triangle. -/
theorem keys_child_card (s s' : ℕ) (idx : List ℕ) (c' : Cache)
    (hM : MeshInv s idx)
    (hdom : ∀ k ∈ keysList idx, (cacheFind c' k).isSome = true)
    (hinj : ∀ k k' m, cacheFind c' k = some m → cacheFind c' k' = some m → k = k')
    (hrng : ∀ k m, cacheFind c' k = some m → s ≤ m ∧ m < s') :
    (keysList (childFlat c' (triples idx))).toFinset.card
      = 2 * (keysList idx).toFinset.card + (triples idx).length * 3 := by
  have hMv : ∀ k ∈ keysList idx, cacheFind c' k = some (cacheGetD c' k) := by
    intro k hk
    rcases Option.isSome_iff_exists.mp (hdom k hk) with ⟨m, hm⟩
    rw [cacheGetD, hm]
    rfl
  have hMrng : ∀ k ∈ keysList idx, s ≤ cacheGetD c' k ∧ cacheGetD c' k < s' :=
    fun k hk => hrng _ _ (hMv k hk)
  have hMinj : ∀ k k', k ∈ keysList idx → k' ∈ keysList idx →
      cacheGetD c' k = cacheGetD c' k' → k = k' := by
    intro k k' h1 h2 he
    refine hinj _ _ _ (hMv k h1) ?_
    rw [he]
    exact hMv k' h2
  have hkb := keys_bound hM
  have hkl := keys_lt hM
  have hsets : (keysList (childFlat c' (triples idx))).toFinset
      = (keysList idx).toFinset.biUnion
          (fun e => {keyOf e.1 (cacheGetD c' e), keyOf e.2 (cacheGetD c' e)})
        ∪ (centKeys c' (triples idx)).toFinset := by
    ext k
    simp only [List.mem_toFinset, Finset.mem_union, Finset.mem_biUnion,
      Finset.mem_insert, Finset.mem_singleton]
    constructor
    · intro hk
      rw [keysList_childFlat, List.mem_flatMap] at hk
      obtain ⟨t, ht, hk⟩ := hk
      rw [List.mem_flatMap] at hk
      obtain ⟨u, hu, hku⟩ := hk
      obtain ⟨a, b, cc⟩ := t
      have hdi := hM.dist _ ht
      dsimp only at hdi
      simp only [midTris] at hu
      rcases childKey_shape (cacheGetD c') a b cc u k hdi.1 hdi.2.1 hdi.2.2 hu hku with
        ⟨v, e, heP, hvend, rfl⟩ | ⟨e, f, heP, hfP, hef, rfl⟩
      · refine Or.inl ⟨e, triKeys_sub_keysList ht _ heP, ?_⟩
        rcases hvend with rfl | rfl
        · exact Or.inl rfl
        · exact Or.inr rfl
      · refine Or.inr ?_
        rw [centKeys, List.mem_flatMap]
        refine ⟨(a, b, cc), ht, ?_⟩
        simp only [triKeys_tuple, List.mem_cons, List.not_mem_nil, or_false] at heP hfP
        rcases heP with rfl | rfl | rfl <;> rcases hfP with rfl | rfl | rfl <;>
          first
            | exact absurd rfl hef
            | simp [centTri, triKeys_tuple, keyOf_comm]
    · intro hk
      rcases hk with ⟨e, heA, hkm⟩ | hk
      · have heK : e ∈ keysList idx := heA
        rw [keysList, List.mem_flatMap] at heK
        obtain ⟨t, ht, heT⟩ := heK
        obtain ⟨a, b, cc⟩ := t
        have hhalf : ∃ u ∈ midTris c' (a, b, cc), k ∈ triKeys u := by
          rcases hkm with rfl | rfl
          · exact half_in_children c' a b cc _ e heT (Or.inl rfl)
          · exact half_in_children c' a b cc _ e heT (Or.inr rfl)
        obtain ⟨u, hu, hku⟩ := hhalf
        rw [keysList_childFlat, List.mem_flatMap]
        exact ⟨(a, b, cc), ht, List.mem_flatMap.mpr ⟨u, hu, hku⟩⟩
      · rw [centKeys, List.mem_flatMap] at hk
        obtain ⟨t, ht, hkc⟩ := hk
        rw [keysList_childFlat, List.mem_flatMap]
        refine ⟨t, ht, List.mem_flatMap.mpr ⟨centTri c' t, ?_, hkc⟩⟩
        obtain ⟨a, b, cc⟩ := t
        simp [midTris, childTris, centTri]
  have hdisj : Disjoint
      ((keysList idx).toFinset.biUnion
        (fun e => {keyOf e.1 (cacheGetD c' e), keyOf e.2 (cacheGetD c' e)}))
      ((centKeys c' (triples idx)).toFinset) := by
    rw [Finset.disjoint_left]
    intro k hkh hkc
    simp only [Finset.mem_biUnion, List.mem_toFinset, Finset.mem_insert,
      Finset.mem_singleton] at hkh
    obtain ⟨e, heA, hkm⟩ := hkh
    have hbe := hkb e heA
    have hre := hMrng e heA
    have hlow : k.1 < s := by
      rcases hkm with rfl | rfl <;> rw [keyOf_minmax] <;> dsimp only <;> omega
    rw [List.mem_toFinset, centKeys, List.mem_flatMap] at hkc
    obtain ⟨t, ht, hkc⟩ := hkc
    obtain ⟨a, b, cc⟩ := t
    have hK1 : keyOf a b ∈ keysList idx :=
      triKeys_sub_keysList ht _ (by simp [triKeys_tuple])
    have hK2 : keyOf b cc ∈ keysList idx :=
      triKeys_sub_keysList ht _ (by simp [triKeys_tuple])
    have hK3 : keyOf cc a ∈ keysList idx :=
      triKeys_sub_keysList ht _ (by simp [triKeys_tuple])
    have hr1 := hMrng _ hK1
    have hr2 := hMrng _ hK2
    have hr3 := hMrng _ hK3
    have hhigh : s ≤ k.1 := by
      simp only [centTri, triKeys_tuple, List.mem_cons, List.not_mem_nil, or_false] at hkc
      rcases hkc with rfl | rfl | rfl <;> rw [keyOf_minmax] <;> dsimp only <;> omega
    omega
  have hpd : ∀ x ∈ (keysList idx).toFinset, ∀ y ∈ (keysList idx).toFinset, x ≠ y →
      Disjoint
        ({keyOf x.1 (cacheGetD c' x), keyOf x.2 (cacheGetD c' x)} : Finset (ℕ × ℕ))
        {keyOf y.1 (cacheGetD c' y), keyOf y.2 (cacheGetD c' y)} := by
    intro x hx y hy hxy
    rw [List.mem_toFinset] at hx hy
    have hbx := hkb x hx
    have hby := hkb y hy
    have hrx := hMrng x hx
    have hry := hMrng y hy
    rw [Finset.disjoint_left]
    intro k hk1 hk2
    simp only [Finset.mem_insert, Finset.mem_singleton] at hk1 hk2
    have hGxy : cacheGetD c' x = cacheGetD c' y := by
      rcases hk1 with rfl | rfl <;> rcases hk2 with h | h <;>
        rw [keyOf_eq_pair] at h <;> omega
    exact hxy (hMinj _ _ hx hy hGxy)
  have hhalfcard : ((keysList idx).toFinset.biUnion
      (fun e => {keyOf e.1 (cacheGetD c' e), keyOf e.2 (cacheGetD c' e)})).card
      = 2 * (keysList idx).toFinset.card := by
    rw [Finset.card_biUnion hpd]
    have hconst : ∀ e ∈ (keysList idx).toFinset,
        ({keyOf e.1 (cacheGetD c' e), keyOf e.2 (cacheGetD c' e)} : Finset (ℕ × ℕ)).card
          = 2 := by
      intro e heA
      rw [List.mem_toFinset] at heA
      have hbe := hkb e heA
      have hle := hkl e heA
      have hre := hMrng e heA
      refine Finset.card_pair ?_
      rw [Ne, keyOf_eq_pair]
      omega
    rw [Finset.sum_congr rfl hconst, Finset.sum_const, smul_eq_mul, Nat.mul_comm]
  have hcnodup : (centKeys c' (triples idx)).Nodup := by
    rw [centKeys, List.nodup_bind]
    constructor
    · intro t ht
      obtain ⟨a, b, cc⟩ := t
      have hdi := hM.dist _ ht
      dsimp only at hdi
      have hK1 : keyOf a b ∈ keysList idx :=
        triKeys_sub_keysList ht _ (by simp [triKeys_tuple])
      have hK2 : keyOf b cc ∈ keysList idx :=
        triKeys_sub_keysList ht _ (by simp [triKeys_tuple])
      have hK3 : keyOf cc a ∈ keysList idx :=
        triKeys_sub_keysList ht _ (by simp [triKeys_tuple])
      have hq12 : keyOf a b ≠ keyOf b cc := by
        rw [Ne, keyOf_eq_pair]
        omega
      have hq23 : keyOf b cc ≠ keyOf cc a := by
        rw [Ne, keyOf_eq_pair]
        omega
      have hq31 : keyOf cc a ≠ keyOf a b := by
        rw [Ne, keyOf_eq_pair]
        omega
      have hn12 : cacheGetD c' (keyOf a b) ≠ cacheGetD c' (keyOf b cc) :=
        fun hMeq => hq12 (hMinj _ _ hK1 hK2 hMeq)
      have hn23 : cacheGetD c' (keyOf b cc) ≠ cacheGetD c' (keyOf cc a) :=
        fun hMeq => hq23 (hMinj _ _ hK2 hK3 hMeq)
      have hn31 : cacheGetD c' (keyOf cc a) ≠ cacheGetD c' (keyOf a b) :=
        fun hMeq => hq31 (hMinj _ _ hK3 hK1 hMeq)
      simp only [centTri, triKeys_tuple]
      refine List.nodup_cons.mpr ⟨?_, List.nodup_cons.mpr ⟨?_, List.nodup_singleton _⟩⟩
      · simp only [List.mem_cons, List.not_mem_nil, or_false]
        intro h
        rcases h with h | h <;> rw [keyOf_eq_pair] at h <;> omega
      · simp only [List.mem_singleton]
        intro h
        rw [keyOf_eq_pair] at h
        omega
    · refine List.Pairwise.imp_of_mem ?_ hM.share
      intro t t' htm htm' hR
      intro k hk hk'
      obtain ⟨a, b, cc⟩ := t
      obtain ⟨x, y, z⟩ := t'
      have hdi := hM.dist _ htm
      dsimp only at hdi
      have hOr : ∀ kk : ℕ × ℕ, kk ∈ triKeys (a, b, cc) ∨ kk ∈ triKeys (x, y, z) →
          kk ∈ keysList idx := by
        intro kk hkk
        rcases hkk with h | h
        · exact triKeys_sub_keysList htm _ h
        · exact triKeys_sub_keysList htm' _ h
      have hinj2 : ∀ kk kk' : ℕ × ℕ,
          (kk ∈ triKeys (a, b, cc) ∨ kk ∈ triKeys (x, y, z)) →
          (kk' ∈ triKeys (a, b, cc) ∨ kk' ∈ triKeys (x, y, z)) →
          cacheGetD c' kk = cacheGetD c' kk' → kk = kk' :=
        fun kk kk' h1 h2 he => hMinj _ _ (hOr _ h1) (hOr _ h2) he
      have hq12 : keyOf a b ≠ keyOf b cc := by
        rw [Ne, keyOf_eq_pair]
        omega
      have hq23 : keyOf b cc ≠ keyOf cc a := by
        rw [Ne, keyOf_eq_pair]
        omega
      have hq31 : keyOf cc a ≠ keyOf a b := by
        rw [Ne, keyOf_eq_pair]
        omega
      simp only [centTri, triKeys_tuple, List.mem_cons, List.not_mem_nil, or_false]
        at hk hk'
      rcases hk with rfl | rfl | rfl <;> rcases hk' with h | h | h
      · exact cent_clash (cacheGetD c') (a, b, cc) (x, y, z) (keyOf a b) (keyOf b cc)
          (keyOf x y) (keyOf y z) hinj2 hR (by simp [triKeys_tuple])
          (by simp [triKeys_tuple]) hq12 (by simp [triKeys_tuple])
          (by simp [triKeys_tuple]) h
      · exact cent_clash (cacheGetD c') (a, b, cc) (x, y, z) (keyOf a b) (keyOf b cc)
          (keyOf y z) (keyOf z x) hinj2 hR (by simp [triKeys_tuple])
          (by simp [triKeys_tuple]) hq12 (by simp [triKeys_tuple])
          (by simp [triKeys_tuple]) h
      · exact cent_clash (cacheGetD c') (a, b, cc) (x, y, z) (keyOf a b) (keyOf b cc)
          (keyOf z x) (keyOf x y) hinj2 hR (by simp [triKeys_tuple])
          (by simp [triKeys_tuple]) hq12 (by simp [triKeys_tuple])
          (by simp [triKeys_tuple]) h
      · exact cent_clash (cacheGetD c') (a, b, cc) (x, y, z) (keyOf b cc) (keyOf cc a)
          (keyOf x y) (keyOf y z) hinj2 hR (by simp [triKeys_tuple])
          (by simp [triKeys_tuple]) hq23 (by simp [triKeys_tuple])
          (by simp [triKeys_tuple]) h
      · exact cent_clash (cacheGetD c') (a, b, cc) (x, y, z) (keyOf b cc) (keyOf cc a)
          (keyOf y z) (keyOf z x) hinj2 hR (by simp [triKeys_tuple])
          (by simp [triKeys_tuple]) hq23 (by simp [triKeys_tuple])
          (by simp [triKeys_tuple]) h
      · exact cent_clash (cacheGetD c') (a, b, cc) (x, y, z) (keyOf b cc) (keyOf cc a)
          (keyOf z x) (keyOf x y) hinj2 hR (by simp [triKeys_tuple])
          (by simp [triKeys_tuple]) hq23 (by simp [triKeys_tuple])
          (by simp [triKeys_tuple]) h
      · exact cent_clash (cacheGetD c') (a, b, cc) (x, y, z) (keyOf cc a) (keyOf a b)
          (keyOf x y) (keyOf y z) hinj2 hR (by simp [triKeys_tuple])
          (by simp [triKeys_tuple]) hq31 (by simp [triKeys_tuple])
          (by simp [triKeys_tuple]) h
      · exact cent_clash (cacheGetD c') (a, b, cc) (x, y, z) (keyOf cc a) (keyOf a b)
          (keyOf y z) (keyOf z x) hinj2 hR (by simp [triKeys_tuple])
          (by simp [triKeys_tuple]) hq31 (by simp [triKeys_tuple])
          (by simp [triKeys_tuple]) h
      · exact cent_clash (cacheGetD c') (a, b, cc) (x, y, z) (keyOf cc a) (keyOf a b)
          (keyOf z x) (keyOf x y) hinj2 hR (by simp [triKeys_tuple])
          (by simp [triKeys_tuple]) hq31 (by simp [triKeys_tuple])
          (by simp [triKeys_tuple]) h
  have hcentcard : (centKeys c' (triples idx)).toFinset.card = (triples idx).length * 3 := by
    rw [List.toFinset_card_of_nodup hcnodup, centKeys_length]
  rw [hsets, Finset.card_disjoint_union hdisj, hhalfcard, hcentcard]

/-- One full `subdivide` pass (empty cache) on a well-formed mesh: the vertex
count grows by exactly the number `E` of distinct edge keys, triangles
quadruple, the output mesh is well-formed, and its key count is
`2·E + 3·T`. -/
theorem subdivideE_step (s : ℕ) (idx : List ℕ)
    (hM : MeshInv s idx)
    (hbound : s + (keysList idx).toFinset.card ≤ 65536) :
    (subdivideE s idx).1 = s + (keysList idx).toFinset.card
    ∧ (subdivideE s idx).2.length = 4 * idx.length
    ∧ MeshInv (s + (keysList idx).toFinset.card) (subdivideE s idx).2
    ∧ (keysList (subdivideE s idx).2).toFinset.card
        = 2 * (keysList idx).toFinset.card + idx.length := by
  have hC0 : CacheOk s ∅ cacheEmpty s := by
    refine ⟨fun k => by simp [cacheFind_empty], ?_, ?_, by simp⟩
    · intro k k' m hk
      rw [cacheFind_empty] at hk
      exact absurd hk (by simp)
    · intro k m hk
      rw [cacheFind_empty] at hk
      exact absurd hk (by simp)
  obtain ⟨c', hC', hmono, heq⟩ := subdivideLoopE_sim s idx s cacheEmpty [] ∅ hM.len3 hC0
    (by simpa using hbound)
  simp only [Finset.sdiff_empty, Finset.empty_union, List.reverse_nil,
    List.nil_append] at hC' heq
  have hE2 : (subdivideE s idx).2 = childFlat c' (triples idx) := by
    rw [subdivideE, heq]
  have hE1 : (subdivideE s idx).1 = s + (keysList idx).toFinset.card := by
    rw [subdivideE, heq]
  have hdom : ∀ k ∈ keysList idx, (cacheFind c' k).isSome = true := by
    intro k hk
    exact (hC'.dom k).mp (List.mem_toFinset.mpr hk)
  have hrng : ∀ k m, cacheFind c' k = some m →
      s ≤ m ∧ m < s + (keysList idx).toFinset.card :=
    fun k m hk => hC'.rng k m hk
  have hT3 : 3 * (triples idx).length = idx.length := triples_length idx hM.len3
  refine ⟨hE1, ?_, ?_, ?_⟩
  · rw [hE2, childFlat_length]
    omega
  · rw [hE2]
    exact meshInv_child s (s + (keysList idx).toFinset.card) idx c' hM (by omega)
      hdom hC'.inj hrng
  · rw [hE2, keys_child_card s (s + (keysList idx).toFinset.card) idx c' hM
      hdom hC'.inj hrng]
    omega

set_option maxRecDepth 40000 in
/-- Concrete subdivision counts for the icosahedron, levels `0..=5`:
`10·4^n + 2` vertices and `60·4^n` triangle indices. -/
theorem subdivideIterE_counts (n : ℕ) (hn : n ≤ 5) :
    (subdivideIterE n (12, icosIndices)).1 = 10 * 4 ^ n + 2
    ∧ (subdivideIterE n (12, icosIndices)).2.length = 60 * 4 ^ n := by
  have h0M : MeshInv 12 icosIndices := ⟨by decide, by decide, by decide, by decide⟩
  have h0E : (keysList icosIndices).toFinset.card = 30 := by decide
  have h0L : icosIndices.length = 60 := by decide
  obtain ⟨h1s, h1L, h1M, h1E⟩ := subdivideE_step 12 icosIndices h0M
    (by rw [h0E]; norm_num)
  rw [h0E] at h1s h1M
  rw [h0E, h0L] at h1E
  rw [h0L] at h1L
  norm_num at h1s h1M h1E h1L
  obtain ⟨h2s, h2L, h2M, h2E⟩ := subdivideE_step 42 (subdivideE 12 icosIndices).2 h1M
    (by rw [h1E]; norm_num)
  rw [h1E] at h2s h2M
  rw [h1E, h1L] at h2E
  rw [h1L] at h2L
  norm_num at h2s h2M h2E h2L
  obtain ⟨h3s, h3L, h3M, h3E⟩ := subdivideE_step 162
    (subdivideE 42 (subdivideE 12 icosIndices).2).2 h2M
    (by rw [h2E]; norm_num)
  rw [h2E] at h3s h3M
  rw [h2E, h2L] at h3E
  rw [h2L] at h3L
  norm_num at h3s h3M h3E h3L
  obtain ⟨h4s, h4L, h4M, h4E⟩ := subdivideE_step 642
    (subdivideE 162 (subdivideE 42 (subdivideE 12 icosIndices).2).2).2 h3M
    (by rw [h3E]; norm_num)
  rw [h3E] at h4s h4M
  rw [h3E, h3L] at h4E
  rw [h3L] at h4L
  norm_num at h4s h4M h4E h4L
  obtain ⟨h5s, h5L, _h5M, _h5E⟩ := subdivideE_step 2562
    (subdivideE 642 (subdivideE 162 (subdivideE 42 (subdivideE 12 icosIndices).2).2).2).2
    h4M (by rw [h4E]; norm_num)
  rw [h4E] at h5s
  rw [h4L] at h5L
  norm_num at h5s h5L
  interval_cases n
  · constructor
    · simp only [subdivideIterE]
      norm_num
    · simp only [subdivideIterE]
      rw [h0L]
      norm_num
  · constructor
    · simp only [subdivideIterE]
      rw [h1s]
      norm_num
    · simp only [subdivideIterE]
      rw [h1L]
      norm_num
  · constructor
    · simp only [subdivideIterE]
      rw [h1s, h2s]
      norm_num
    · simp only [subdivideIterE]
      rw [h1s, h2L]
      norm_num
  · constructor
    · simp only [subdivideIterE]
      rw [h1s, h2s, h3s]
      norm_num
    · simp only [subdivideIterE]
      rw [h1s, h2s, h3L]
      norm_num
  · constructor
    · simp only [subdivideIterE]
      rw [h1s, h2s, h3s, h4s]
      norm_num
    · simp only [subdivideIterE]
      rw [h1s, h2s, h3s, h4L]
      norm_num
  · constructor
    · simp only [subdivideIterE]
      rw [h1s, h2s, h3s, h4s, h5s]
      norm_num
    · simp only [subdivideIterE]
      rw [h1s, h2s, h3s, h4s, h5L]
      norm_num

/-- C4: for every `n` with `n ≤ 5`, subdividing the icosahedron `n` times
yields exactly `10·4^n + 2` vertices and `20·4^n` triangles (that is,
`3·(20·4^n)` triangle indices), and `create_regions(n)` returns exactly
`20·4^n` regions — each shared edge midpoint being created exactly once per
level through the midpoint cache. -/
theorem icosphere_counts (V : Type) (mid : V → V → V) (nrm : V → V) (d : ℕ → V)
    (n : ℕ) (hn : n ≤ 5) :
    (subdivideIter mid n (Store.map nrm ⟨12, d⟩, icosIndices)).1.size = 10 * 4 ^ n + 2
    ∧ (subdivideIter mid n (Store.map nrm ⟨12, d⟩, icosIndices)).2.length
        = 3 * (20 * 4 ^ n)
    ∧ (createRegions mid nrm ⟨12, d⟩ n).length = 20 * 4 ^ n := by
  obtain ⟨hs, hl⟩ := subdivideIterE_counts n hn
  have hproj := subdivideIter_proj mid n (Store.map nrm ⟨12, d⟩, icosIndices)
  have h12 : (((Store.map nrm (⟨12, d⟩ : Store V), icosIndices)).1.size,
      ((Store.map nrm (⟨12, d⟩ : Store V), icosIndices)).2) = ((12 : ℕ), icosIndices) := rfl
  rw [h12] at hproj
  have hlen : (subdivideIter mid n (Store.map nrm ⟨12, d⟩, icosIndices)).2.length
      = 60 * 4 ^ n := by
    rw [hproj.2, hl]
  have h603 : 60 * 4 ^ n = 3 * (20 * 4 ^ n) := by ring
  refine ⟨?_, ?_, ?_⟩
  · rw [hproj.1, hs]
  · rw [hlen, h603]
  · have hcr : (createRegions mid nrm ⟨12, d⟩ n).length
        = (subdivideIter mid n (Store.map nrm ⟨12, d⟩, icosIndices)).2.length / 3 := by
      simp [createRegions]
    rw [hcr, hlen, h603, Nat.mul_div_cancel_left _ (by norm_num : (0 : ℕ) < 3)]

/-- C4 witness: the count theorem applied at `n = 2` over the unit vertex
type. -/
theorem icosphere_counts_witness :
    2 ≤ 5
    ∧ ((subdivideIter (fun _ _ => ()) 2
          (Store.map id ⟨12, fun _ => ()⟩, icosIndices)).1.size = 10 * 4 ^ 2 + 2
      ∧ (subdivideIter (fun _ _ => ()) 2
          (Store.map id ⟨12, fun _ => ()⟩, icosIndices)).2.length = 3 * (20 * 4 ^ 2)
      ∧ (createRegions (fun _ _ => ()) id ⟨12, fun _ => ()⟩ 2).length = 20 * 4 ^ 2) :=
  ⟨by decide, icosphere_counts Unit (fun _ _ => ()) id (fun _ => ()) 2 (by decide)⟩

end PlanetPlacer
